import Mathlib

/-!
Verification of the response-normalization, masking and persistence core of
the `gemini-image-node` CLI (src/src/utils.js, src/src/auth.js and the Imagen
generation module).  JavaScript values flowing through `maskBase64Content`,
`getValueAtPath` and `setValueAtPath` are modelled by a JSON value tree;
property access and assignment follow JavaScript semantics (including the
TypeError raised when a property of `null` is read, modelled as `Except.error`),
restricted to the JSON-shaped data these functions actually receive
(prototype-inherited members are not modelled; `length` on arrays and strings
and character indexing on strings are).  The deep copy
`JSON.parse(JSON.stringify(obj))` is the identity on alias-free JSON trees and
is modelled as such.
-/

/-- A JSON-shaped JavaScript value. -/
inductive JsValue where
  | vNull : JsValue
  | vBool : Bool → JsValue
  | vNum : Int → JsValue
  | vStr : String → JsValue
  | vArr : List JsValue → JsValue
  | vObj : List (String × JsValue) → JsValue

/-- JavaScript truthiness of a JSON value (`NaN` does not occur in parsed JSON). -/
def JsValue.truthy : JsValue → Bool
  | .vNull => false
  | .vBool b => b
  | .vNum n => n != 0
  | .vStr s => !s.isEmpty
  | .vArr _ => true
  | .vObj _ => true

/-- `Array.isArray`. -/
def JsValue.isArr : JsValue → Bool
  | .vArr _ => true
  | _ => false

/-- `typeof v === 'object'` (true for null, arrays and plain objects). -/
def JsValue.isObjLike : JsValue → Bool
  | .vNull => true
  | .vArr _ => true
  | .vObj _ => true
  | _ => false

/-- First-match field lookup in an object's field list (objects built by
`JSON.parse` have distinct keys; lookup returns the first occurrence). -/
def lookupField : List (String × JsValue) → String → Option JsValue
  | [], _ => none
  | (k, v) :: fs, key => if k = key then some v else lookupField fs key

/-- Assignment `o[key] = x` on an object: overwrites the first occurrence of
`key` in place, or appends the key at the end (JavaScript insertion order). -/
def updateField : List (String × JsValue) → String → JsValue → List (String × JsValue)
  | [], key, x => [(key, x)]
  | (k, v) :: fs, key, x =>
      if k = key then (key, x) :: fs else (k, v) :: updateField fs key x

/-- Decimal digit character. -/
def digitChar (n : Nat) : Char := Char.ofNat (48 + n)

/-- Decimal digits of `n`, most significant first, prepended to `acc`.
The explicit fuel keeps the recursion structural so that terms evaluate by
kernel reduction; `fuel > n` always suffices. -/
def natToCharsAux : Nat → Nat → List Char → List Char
  | 0, _, acc => acc
  | fuel + 1, n, acc =>
      if n < 10 then digitChar n :: acc
      else natToCharsAux fuel (n / 10) (digitChar (n % 10) :: acc)

/-- Decimal representation of a natural number as characters (the result of
interpolating a JavaScript array index into a template string). -/
def natToChars (n : Nat) : List Char := natToCharsAux (n + 1) n []

/-- Template-string interpolation of an array index (`${index}`). -/
def jsNumToString (n : Nat) : String := String.mk (natToChars n)

/-- Parse a non-empty all-digit character list as a natural number. -/
def parseDigits : List Char → Option Nat
  | [] => none
  | cs =>
      if cs.all Char.isDigit then
        some (cs.foldl (fun acc c => acc * 10 + (c.toNat - 48)) 0)
      else none

/-- A property key is an array index exactly when it is the canonical decimal
string of the index (JavaScript: `arr["00"]` is a plain property, not index 0). -/
def canonicalIndex (s : String) : Option Nat :=
  match parseDigits s.data with
  | some n => if natToChars n = s.data then some n else none
  | none => none

/-- Property read `v[key]` on a non-null value: `none` is JavaScript's
`undefined`.  Own JSON data, array/string `length` and string character
indexing are modelled; prototype-inherited members are not (none of the keys
used by the repository collide with them). -/
def propOf : JsValue → String → Option JsValue
  | .vNull, _ => none  -- unreachable: jsGetProp handles null separately
  | .vObj fs, key => lookupField fs key
  | .vArr xs, key =>
      if key = "length" then some (.vNum xs.length)
      else (canonicalIndex key).bind xs.get?
  | .vStr s, key =>
      if key = "length" then some (.vNum s.length)
      else ((canonicalIndex key).bind s.data.get?).map fun c => .vStr (String.mk [c])
  | _, _ => none

/-- Property read `v[key]`: reading a property of `null` throws a TypeError
(`Except.error`); every other value yields a value or `undefined`. -/
def jsGetProp : JsValue → String → Except Unit (Option JsValue)
  | .vNull, _ => .error ()
  | v, key => .ok (propOf v key)

/-- Array element assignment `arr[n] = x`: in range replaces, out of range
extends; JavaScript fills the gap with holes, which `JSON.stringify` (the only
observer in this code base) serializes as `null`. -/
def setIndex (xs : List JsValue) (n : Nat) (x : JsValue) : List JsValue :=
  if n < xs.length then xs.set n x
  else xs ++ List.replicate (n - xs.length) .vNull ++ [x]

/-- Property assignment `v[key] = x` in strict mode (all repository files are
ES modules): objects and array indices are written; a non-index key on an
array would create an expando property invisible to `JSON.stringify` and to
every read this code performs, so it is modelled as leaving the array
unchanged (assignment to `length` is likewise never performed by this code);
assigning a property of `null` or of a primitive throws a TypeError. -/
def jsSetProp : JsValue → String → JsValue → Except Unit JsValue
  | .vObj fs, key, x => .ok (.vObj (updateField fs key x))
  | .vArr xs, key, x =>
      match canonicalIndex key with
      | some n => .ok (.vArr (setIndex xs n x))
      | none => .ok (.vArr xs)
  | _, _, _ => .error ()

example : jsGetProp (.vObj [("a", .vNum 1)]) "a" = .ok (some (.vNum 1)) := rfl
example : jsGetProp .vNull "a" = .error () := rfl
example : jsGetProp (.vArr [.vNum 7]) "0" = .ok (some (.vNum 7)) := rfl
example : jsGetProp (.vArr [.vNum 7]) "00" = .ok none := rfl
example : jsGetProp (.vArr [.vNum 7]) "length" = .ok (some (.vNum 1)) := rfl
example : jsNumToString 120 = "120" := rfl
example : canonicalIndex "12" = some 12 := rfl
example : canonicalIndex "012" = none := rfl

/-!
### Path strings

`getValueAtPath` / `setValueAtPath` turn a path such as
`predictions[2].bytesBase64Encoded` into segments by
`path.replace(/\[(\d+)\]/g, '.$1').split('.')`.
`normalizeBracketsAux` performs the global regex replacement (a bracketed
digit run becomes a dot followed by the digits; a failed match leaves the
`[` in place and scanning resumes after it, which coincides with the regex
engine's behaviour because a match can only start at a `[`).  The explicit
fuel (any value at least the length of the input) keeps it structural.
-/

def normalizeBracketsAux : Nat → List Char → List Char
  | 0, cs => cs
  | _ + 1, [] => []
  | fuel + 1, c :: rest =>
      if c = '[' then
        let ds := rest.takeWhile Char.isDigit
        let rest' := rest.dropWhile Char.isDigit
        if ds.isEmpty then '[' :: normalizeBracketsAux fuel rest
        else if rest'.head? = some ']' then
          '.' :: (ds ++ normalizeBracketsAux fuel rest'.tail)
        else '[' :: (ds ++ normalizeBracketsAux fuel rest')
      else c :: normalizeBracketsAux fuel rest

/-- `path.replace(/\[(\d+)\]/g, '.$1')` on the character list. -/
def normalizeBrackets (cs : List Char) : List Char :=
  normalizeBracketsAux cs.length cs

/-- `path.replace(/\[(\d+)\]/g, '.$1').split('.')`. -/
def pathSegments (path : String) : List String :=
  ((normalizeBrackets path.data).splitOn '.').map fun cs => String.mk cs

example : pathSegments "predictions[2].bytesBase64Encoded"
    = ["predictions", "2", "bytesBase64Encoded"] := rfl
example : pathSegments "a[0].b" = ["a", "0", "b"] := rfl
example : pathSegments "" = [""] := rfl
example : pathSegments "a..b" = ["a", "", "b"] := rfl

/-!
### getValueAtPath / setValueAtPath (src/src/utils.js lines 146-174)

The traversal state `current` is an `Option JsValue` whose `none` is
JavaScript's `undefined`.  `getSegs` mirrors the loop of `getValueAtPath`:
at each segment it first short-circuits on `undefined`, then performs the
property read, which throws (`Except.error`) when `current` is `null`.
-/

def getSegs : Option JsValue → List String → Except Unit (Option JsValue)
  | cur, [] => .ok cur
  | none, _ :: _ => .ok none
  | some v, seg :: rest => do
      let nxt ← jsGetProp v seg
      getSegs nxt rest

/-- `getValueAtPath(obj, path)` (src/src/utils.js lines 146-156). -/
def getValueAtPath (obj : JsValue) (path : String) : Except Unit (Option JsValue) :=
  getSegs (some obj) (pathSegments path)

/-- The loop of `setValueAtPath`: walk all but the last segment, checking
`current[segments[i]] === undefined` before descending (a silent no-op when
the check hits `undefined`), then assign at the last segment.  Returns
`.ok none` when nothing was assigned (the no-op), `.ok (some v')` for the
updated root (JavaScript mutates in place; functional update is faithful
because `maskBase64Content` only ever mutates the alias-free tree produced
by `JSON.parse`), and `.error` for a thrown TypeError. -/
def setSegs : JsValue → List String → JsValue → Except Unit (Option JsValue)
  | _, [], _ => .ok none  -- unreachable: split('.') never yields an empty list
  | v, [last], x => (jsSetProp v last x).map some
  | v, seg :: seg' :: rest, x => do
      let child ← jsGetProp v seg
      match child with
      | none => .ok none
      | some c =>
          match ← setSegs c (seg' :: rest) x with
          | none => .ok none
          | some c' => (jsSetProp v seg c').map some

/-- `setValueAtPath(obj, path, value)` (src/src/utils.js lines 164-174),
returning the root after the call (unchanged on the silent no-op). -/
def setValueAtPath (obj : JsValue) (path : String) (x : JsValue) : Except Unit JsValue :=
  match setSegs obj (pathSegments path) x with
  | .error e => .error e
  | .ok none => .ok obj
  | .ok (some v') => .ok v'

example : getValueAtPath (.vObj [("a", .vArr [.vObj [("b", .vNum 1)]])]) "a[0].b"
    = .ok (some (.vNum 1)) := rfl
example : getValueAtPath (.vObj []) "a[0].b" = .ok none := rfl
example : setValueAtPath (.vObj [("a", .vArr [.vObj []])]) "a[0].c" (.vNum 5)
    = .ok (.vObj [("a", .vArr [.vObj [("c", .vNum 5)]])]) := rfl
example : setValueAtPath (.vObj []) "a[0].c" (.vNum 5) = .ok (.vObj []) := rfl
example : getValueAtPath (.vObj [("a", .vNull)]) "a.b.c" = .error () := rfl
example : setValueAtPath (.vObj [("a", .vNull)]) "a.b.c" (.vNum 5) = .error () := rfl

/-!
### maskBase64Content (src/src/utils.js lines 71-136)
-/

/-- The placeholder `` `[BASE64_DATA_MASKED: ~${Math.floor(len/4*3/1024)} KB]` ``.
`len/4` and `/1024` only shift the binary exponent of a double and `*3` is
exact below `2^51`, so the JavaScript float computation equals the exact
rational floor `⌊3·len/4096⌋` for every representable string length. -/
def maskPlaceholder (len : Nat) : String :=
  "[BASE64_DATA_MASKED: ~" ++ jsNumToString (3 * len / 4096) ++ " KB]"

/-- `JSON.parse(JSON.stringify(obj))`: the identity on the alias-free JSON
trees modelled by `JsValue`. -/
def jsonDeepCopy (v : JsValue) : JsValue := v

/-- Is an optional property value a truthy array (`x && Array.isArray(x)`)?
Arrays are always truthy, so this holds exactly for arrays. -/
def isTruthyArray : Option JsValue → Bool
  | some (.vArr _) => true
  | _ => false

/-- The path template `` `predictions[${index}].bytesBase64Encoded` ``. -/
def imagenPathStr (i : Nat) : String :=
  "predictions[" ++ jsNumToString i ++ "].bytesBase64Encoded"

/-- The path template
`` `candidates[${i}].content.parts[${j}].inlineData.data` ``. -/
def geminiPathStr (i j : Nat) : String :=
  "candidates[" ++ jsNumToString i ++ "].content.parts[" ++ jsNumToString j
    ++ "].inlineData.data"

/-- `findImagenBase64Paths` (src/src/utils.js lines 105-115): one path per
prediction index. -/
def findImagenBase64Paths (obj : JsValue) : Except Unit (List String) := do
  let predField ← jsGetProp obj "predictions"
  match predField with
  | some (.vArr xs) =>
      .ok ((List.range xs.length).map imagenPathStr)
  | _ => .ok []

/-- Body of the `forEach` in `findGeminiBase64Paths`: the guard
`candidate.content && candidate.content.parts && Array.isArray(...)`.
Reading `content` off a `null` candidate throws. -/
def geminiPathsForCandidate (cand : JsValue) (i : Nat) : Except Unit (List String) := do
  let content? ← jsGetProp cand "content"
  match content? with
  | some content =>
      if content.truthy then do
        let parts? ← jsGetProp content "parts"
        match parts? with
        | some (.vArr parts) =>
            .ok ((List.range parts.length).map (geminiPathStr i))
        | _ => .ok []
      else .ok []
  | none => .ok []

/-- The `forEach` over candidates, in order (an exception aborts the scan). -/
def geminiCandPaths : Nat → List JsValue → Except Unit (List String)
  | _, [] => .ok []
  | i, cand :: rest => do
      let here ← geminiPathsForCandidate cand i
      let more ← geminiCandPaths (i + 1) rest
      .ok (here ++ more)

/-- `findGeminiBase64Paths` (src/src/utils.js lines 122-136). -/
def findGeminiBase64Paths (obj : JsValue) : Except Unit (List String) := do
  let candField ← jsGetProp obj "candidates"
  match candField with
  | some (.vArr cands) => geminiCandPaths 0 cands
  | _ => .ok []

/-- The vendor branch of `maskBase64Content` (lines 80-86): an array-valued
`predictions` field selects the Imagen rules, otherwise an array-valued
`candidates` field selects the Gemini rules, otherwise there are no
masking candidates. -/
def responsePaths (masked : JsValue) : Except Unit (List String) := do
  let predField ← jsGetProp masked "predictions"
  if isTruthyArray predField then findImagenBase64Paths masked
  else do
    let candField ← jsGetProp masked "candidates"
    if isTruthyArray candField then findGeminiBase64Paths masked
    else .ok []

/-- One iteration of the masking `forEach` (lines 89-95): fetch the value at
the path; if it is a string longer than 100 characters, overwrite it with the
placeholder. -/
def maskStep (m : JsValue) (p : String) : Except Unit JsValue := do
  let v ← getValueAtPath m p
  match v with
  | some (.vStr s) =>
      if 100 < s.length then setValueAtPath m p (.vStr (maskPlaceholder s.length))
      else .ok m
  | _ => .ok m

/-- The masking `forEach` over all identified paths, in order. -/
def applyMasks : List String → JsValue → Except Unit JsValue
  | [], m => .ok m
  | p :: rest, m => do applyMasks rest (← maskStep m p)

/-- `maskBase64Content` (src/src/utils.js lines 71-98).  Falsy or
non-`object` inputs are returned unchanged; otherwise the deep copy is
masked at every identified path.  `Except.error` models a thrown TypeError
(which the JavaScript version does raise on some malformed shapes). -/
def maskBase64Content (obj : JsValue) : Except Unit JsValue :=
  if obj.truthy && obj.isObjLike then do
    let masked := jsonDeepCopy obj
    let paths ← responsePaths masked
    applyMasks paths masked
  else .ok obj

example : maskBase64Content (.vStr "x") = .ok (.vStr "x") := rfl
example : maskBase64Content .vNull = .ok .vNull := rfl
example : maskBase64Content (.vObj [("predictions", .vArr [.vNull])]) = .error () := rfl
example : maskBase64Content (.vObj [("candidates", .vArr [.vNull])]) = .error () := rfl
set_option maxRecDepth 4000 in
example :
    maskBase64Content (.vObj [("predictions", .vArr [.vObj
      [("bytesBase64Encoded", .vStr (String.mk (List.replicate 200 'A')))]])])
    = .ok (.vObj [("predictions", .vArr [.vObj
      [("bytesBase64Encoded", .vStr "[BASE64_DATA_MASKED: ~0 KB]")]])]) := by rfl

/-!
### saveFile and Node's base64 codec (src/src/utils.js lines 185-206)

`saveFile` with `isBase64:true` writes `Buffer.from(data, 'base64')`.
Node's decoder is forgiving: characters outside the base64 alphabet
(including the `=` padding) are skipped, the remaining sextets are packed,
and a trailing partial group contributes ⌊bits/8⌋ bytes.  Re-encoding a
buffer with `toString('base64')` always produces the canonical padded
encoding.  Bytes are modelled as `Nat` below 256.
-/

/-- The base64 alphabet character of a sextet. -/
def b64Char (v : Nat) : Char :=
  if v < 26 then Char.ofNat (65 + v)
  else if v < 52 then Char.ofNat (97 + (v - 26))
  else if v < 62 then Char.ofNat (48 + (v - 52))
  else if v = 62 then '+'
  else '/'

/-- Membership in the base64 alphabet. -/
def isB64Char (c : Char) : Bool :=
  ('A' ≤ c && c ≤ 'Z') || ('a' ≤ c && c ≤ 'z') || ('0' ≤ c && c ≤ '9')
    || c = '+' || c = '/'

/-- The sextet value of a base64 alphabet character. -/
def b64Val (c : Char) : Nat :=
  if 'A' ≤ c && c ≤ 'Z' then c.toNat - 65
  else if 'a' ≤ c && c ≤ 'z' then c.toNat - 97 + 26
  else if '0' ≤ c && c ≤ '9' then c.toNat - 48 + 52
  else if c = '+' then 62
  else 63

/-- Canonical (padded) base64 encoding, three input bytes per four output
characters — `buffer.toString('base64')`. -/
def b64EncodeBytes : List Nat → List Char
  | [] => []
  | [b1] => [b64Char (b1 / 4), b64Char (b1 % 4 * 16), '=', '=']
  | [b1, b2] => [b64Char (b1 / 4), b64Char (b1 % 4 * 16 + b2 / 16),
      b64Char (b2 % 16 * 4), '=']
  | b1 :: b2 :: b3 :: rest =>
      b64Char (b1 / 4) :: b64Char (b1 % 4 * 16 + b2 / 16)
        :: b64Char (b2 % 16 * 4 + b3 / 64) :: b64Char (b3 % 64)
        :: b64EncodeBytes rest

def b64Encode (bytes : List Nat) : String := String.mk (b64EncodeBytes bytes)

/-- Pack a list of sextets into bytes; a trailing group of 2 or 3 sextets
contributes 1 or 2 bytes, a single leftover sextet is dropped. -/
def b64PackVals : List Nat → List Nat
  | v1 :: v2 :: v3 :: v4 :: rest =>
      (v1 * 4 + v2 / 16) :: (v2 % 16 * 16 + v3 / 4) :: (v3 % 4 * 64 + v4)
        :: b64PackVals rest
  | [v1, v2] => [v1 * 4 + v2 / 16]
  | [v1, v2, v3] => [v1 * 4 + v2 / 16, v2 % 16 * 16 + v3 / 4]
  | _ => []

/-- `Buffer.from(data, 'base64')`: skip every character outside the alphabet
(also `=`), then pack the sextets. -/
def b64Decode (data : String) : List Nat :=
  b64PackVals ((data.data.filter isB64Char).map b64Val)

/-- Bytes written by `saveFile(filePath, data, {isBase64})`
(src/src/utils.js lines 185-206): the base64 branch decodes first, the other
branch writes the string's UTF-8 bytes.  Reading the file back yields exactly
these bytes. -/
def saveFileBytes (data : String) (isBase64 : Bool) : List Nat :=
  if isBase64 then b64Decode data
  else data.toUTF8.toList.map UInt8.toNat

example : b64Encode [65] = "QQ==" := rfl
example : b64Decode "QQ==" = [65] := rfl
example : b64Decode "QQ" = [65] := rfl
example : b64Decode "!!!!" = [] := rfl
example : b64Encode (b64Decode "QQ") = "QQ==" := rfl
example : b64Decode "TWFu" = [77, 97, 110] := rfl

/-!
### String helpers shared by the normalizers

`String.prototype.includes`, `String.prototype.split` and the regular
expression `/filtered out (\d+) generated images/` (first match, greedy
digits — equivalent to the maximal digit run because backtracking into the
digit class can never make the following literal match).
-/

/-- Strip a literal character sequence off the front, returning the rest. -/
def stripLiteral : List Char → List Char → Option (List Char)
  | [], cs => some cs
  | _ :: _, [] => none
  | l :: ls, c :: cs => if c = l then stripLiteral ls cs else none

/-- Does `cs` begin with the literal `lit`? -/
def beginsWith (lit cs : List Char) : Bool := (stripLiteral lit cs).isSome

/-- `haystack.includes(needle)`. -/
def jsIncludes (haystack needle : String) : Bool :=
  go needle.data haystack.data
where
  go (needle : List Char) : List Char → Bool
    | [] => beginsWith needle []
    | c :: t => beginsWith needle (c :: t) || go needle t

/-- Try the filtered-count pattern at one position:
`filtered out (\d+) generated images`, with `parseInt(match[1], 10)`. -/
def filteredCountAt (cs : List Char) : Option Nat := do
  let rest ← stripLiteral "filtered out ".data cs
  let ds := rest.takeWhile Char.isDigit
  if ds.isEmpty then none
  else do
    let _ ← stripLiteral " generated images".data (rest.dropWhile Char.isDigit)
    parseDigits ds

/-- Leftmost match of `/filtered out (\d+) generated images/`. -/
def findFilteredCount : List Char → Option Nat
  | [] => filteredCountAt []
  | c :: t =>
      match filteredCountAt (c :: t) with
      | some n => some n
      | none => findFilteredCount t

/-- `path.join(dir, name)` with the POSIX separator. -/
def pathJoin (dir name : String) : String := dir ++ "/" ++ name

/-- Truthiness of an optional string-valued field (absent and `""` are falsy). -/
def optTruthy : Option String → Bool
  | some s => !s.isEmpty
  | none => false

example : jsIncludes "abcdef" "cde" = true := rfl
example : jsIncludes "abcdef" "cdf" = false := rfl
example : findFilteredCount "Your request filtered out 3 generated images on RAI grounds".data
    = some 3 := rfl
example : findFilteredCount "All images were filtered out".data = none := rfl

/-!
### Imagen response processing (src/unnamed/part_000, `generateImagesWithImagen`)

The response-interpretation part of `generateImagesWithImagen` (lines 158-274)
on a parsed, vendor-shaped response.  Console logging and the actual
filesystem writes are side effects with no influence on the returned record
beyond the file names collected in `savedImagePaths`; `generatedCount` is
incremented exactly when a path is pushed, so it is modelled as the length of
the collected list.
-/

structure ImagenImage where
  bytesBase64Encoded : Option String := none

structure ImagenPrediction where
  raiFilteredReason : Option String := none
  images : Option (List ImagenImage) := none
  bytesBase64Encoded : Option String := none
  mimeType : Option String := none

structure ImagenResponse where
  predictions : Option (List ImagenPrediction) := none

/-- The result record returned by `generateImagesWithImagen`.  JavaScript
reuses the key `blocked` for a boolean in some returns and for the blocked
count in the success return; the two uses are split into `blockedFlag` and
`blockedNum`. -/
structure ImagenGenResult where
  success : Bool
  error : Option String := none
  blockedFlag : Option Bool := none
  blockedNum : Option Nat := none
  raiFiltered : Option Bool := none
  details : Option String := none
  permissionIssue : Option Bool := none
  statusCode : Option Nat := none
  outputDir : Option String := none
  images : List String := []
  generated : Option Nat := none
  blockedCount : Option Nat := none

/-- The sentinel the first pass looks for (line 170). -/
def raiAllSentinel : String :=
  "Unable to show generated images. All images were filtered out"

/-- First pass (lines 164-196): scan every prediction; a truthy
`raiFilteredReason` containing the sentinel aborts with that reason
(`Except.error`); otherwise the filtered-count pattern accumulates into
`blockedCount`. -/
def imagenFirstPass : List ImagenPrediction → Except String Nat
  | [] => .ok 0
  | p :: rest =>
      if optTruthy p.raiFilteredReason then
        let r := p.raiFilteredReason.getD ""
        if jsIncludes r raiAllSentinel then .error r
        else
          match findFilteredCount r.data with
          | some k => do
              let b ← imagenFirstPass rest
              .ok (k + b)
          | none => imagenFirstPass rest
      else imagenFirstPass rest

/-- Extension for the direct-format branch (lines 225-226):
`(prediction.mimeType || 'image/png').split('/')[1] || 'png'`. -/
def imagenExt (mimeType : Option String) : String :=
  let imageType := if optTruthy mimeType then mimeType.getD "" else "image/png"
  match (imageType.data.splitOn '/').get? 1 with
  | some cs => if cs.isEmpty then "png" else String.mk cs
  | none => "png"

/-- Files contributed by one prediction in the second pass (lines 199-235):
predictions with a truthy filter reason are skipped; the standard format
(non-empty `images` array) writes `<requestId>_<i>_<index>.png` for every
element with a truthy `bytesBase64Encoded` (the element's array position
`index`, not a running count); the direct format writes
`<requestId>_<i>.<ext>`. -/
def imagenPredFiles (requestId outputDir : String) (i : Nat)
    (p : ImagenPrediction) : List String :=
  if optTruthy p.raiFilteredReason then []
  else
    match p.images with
    | some imgs =>
        if imgs.length > 0 then
          (imgs.enum.filter fun e => optTruthy e.2.bytesBase64Encoded).map fun e =>
            pathJoin outputDir
              (requestId ++ "_" ++ jsNumToString i ++ "_" ++ jsNumToString e.1 ++ ".png")
        else if optTruthy p.bytesBase64Encoded then
          [pathJoin outputDir
            (requestId ++ "_" ++ jsNumToString i ++ "." ++ imagenExt p.mimeType)]
        else []
    | none =>
        if optTruthy p.bytesBase64Encoded then
          [pathJoin outputDir
            (requestId ++ "_" ++ jsNumToString i ++ "." ++ imagenExt p.mimeType)]
        else []

/-- Second pass over all predictions, in order. -/
def imagenSecondPass (requestId outputDir : String)
    (preds : List ImagenPrediction) : List String :=
  (preds.enum.map fun e => imagenPredFiles requestId outputDir e.1 e.2).flatten

/-- Lines 158-274: interpret a parsed Imagen response (`result` may be any
JSON; a vendor-shaped value or `null` is modelled). -/
def processImagenResult (result : Option ImagenResponse)
    (requestId outputDir : String) : ImagenGenResult :=
  let noPreds : ImagenGenResult :=
    { success := false, error := some "No predictions found in response" }
  match result with
  | none => noPreds
  | some res =>
      match res.predictions with
      | none => noPreds
      | some preds =>
          if preds.length > 0 then
            match imagenFirstPass preds with
            | .error reason =>
                { success := false, error := some "责任人工智能过滤了内容",
                  blockedFlag := some true, raiFiltered := some true,
                  details := some reason }
            | .ok blockedTotal =>
                let saved := imagenSecondPass requestId outputDir preds
                if saved.length > 0 then
                  { success := true, outputDir := some outputDir, images := saved,
                    generated := some saved.length, blockedNum := some blockedTotal }
                else
                  { success := false, error := some "没有保存任何图像",
                    blockedFlag := some (blockedTotal > 0),
                    blockedCount := some blockedTotal }
          else noPreds

/-!
### Gemini response processing (src/src/auth.js, `processGeminiResponse`)
-/

structure GInlineData where
  mimeType : Option String := none
  data : Option String := none

structure GPart where
  text : Option String := none
  inlineData : Option GInlineData := none

structure GContent where
  parts : Option (List GPart) := none

structure GCandidate where
  finishReason : Option String := none
  content : Option GContent := none

structure GeminiResponse where
  candidates : Option (List GCandidate) := none

structure GeminiGenResult where
  success : Bool
  error : Option String := none
  safetyBlock : Option Bool := none
  outputDir : Option String := none
  jsonDir : Option String := none
  images : List String := []
  responseFile : Option String := none

/-- The guard `part.inlineData && part.inlineData.data` (line 394): the part
matches when `inlineData` is present and its `data` is a truthy string. -/
def geminiPartData (p : GPart) : Option String :=
  match p.inlineData with
  | some idata =>
      match idata.data with
      | some d => if d.isEmpty then none else some d
      | none => none
  | none => none

/-- Extension for a matching part (lines 397-398):
`(part.inlineData.mimeType || 'image/png').split('/')[1]` — note there is no
`|| 'png'` fallback here: a truthy MIME type without a `/` makes
`split('/')[1]` `undefined`, which the template string renders as the text
`undefined`. -/
def geminiExt (mimeType : Option String) : String :=
  let imageType := if optTruthy mimeType then mimeType.getD "" else "image/png"
  match (imageType.data.splitOn '/').get? 1 with
  | some cs => String.mk cs
  | none => "undefined"

/-- The extraction loop (lines 390-406): `imageCount` is incremented before
use, so file names carry a 1-based counter that advances only on matching
parts. -/
def geminiExtract (requestId outputDir : String) : Nat → List GPart → List String
  | _, [] => []
  | count, p :: rest =>
      match geminiPartData p with
      | some _ =>
          pathJoin outputDir
              (requestId ++ "_generated_" ++ jsNumToString (count + 1) ++ "."
                ++ geminiExt (p.inlineData.bind GInlineData.mimeType))
            :: geminiExtract requestId outputDir (count + 1) rest
      | none => geminiExtract requestId outputDir count rest

/-- `processGeminiResponse` (src/src/auth.js lines 362-436) on a
vendor-shaped parsed response.  The masked response is persisted first; the
safety check consults only the first candidate; extraction walks
`candidates[0].content.parts` in order.  The `try`/`catch` around the
extraction cannot fire on JSON-shaped data (the walk only performs guarded
accesses), so the catch's success-with-warning return is unreachable in the
model. -/
def processGeminiResponse (result : GeminiResponse)
    (requestId outputDir jsonDir : String) : GeminiGenResult :=
  let responseFilename := pathJoin jsonDir (requestId ++ "_response.json")
  let finalResult (saved : List String) : GeminiGenResult :=
    { success := true, outputDir := some outputDir, jsonDir := some jsonDir,
      images := saved, responseFile := some responseFilename }
  match result.candidates with
  | some (c0 :: _) =>
      if c0.finishReason = some "IMAGE_SAFETY" then
        { success := false, error := some "由于安全问题，图像生成被阻止",
          safetyBlock := some true, responseFile := some responseFilename }
      else
        match c0.content with
        | some ct =>
            match ct.parts with
            | some parts => finalResult (geminiExtract requestId outputDir 0 parts)
            | none => finalResult []
        | none => finalResult []
  | _ => finalResult []

/-!
### Transport failure handling

`fetchWithProxy` (src/src/proxy.js region of src/src/auth.js lines 234-346)
with the outcomes of the primary attempt and of the single proxy-reconfigured
retry supplied by the environment.  When the primary attempt throws and the
retry condition (`SYSTEM_PROXY` set, and either no proxy agent was in use or
the error code is `ETIMEDOUT`) holds, the retry's result is returned on
success; a retry failure is thrown at line 324 but that throw is caught by
the surrounding diagnostic `catch (debugError)`, after which line 345
rethrows the *original* error.  Outside the retry condition the original
error is rethrown directly. -/

structure NetErr where
  message : String
  code : Option String := none

def fetchWithProxy {α : Type} (firstAttempt : Except NetErr α)
    (systemProxy : Option String) (proxyAgent : Option String)
    (retryAttempt : Except NetErr α) : Except NetErr α :=
  match firstAttempt with
  | .ok r => .ok r
  | .error e =>
      match systemProxy with
      | some _ =>
          if proxyAgent.isNone || e.code = some "ETIMEDOUT" then
            match retryAttempt with
            | .ok r => .ok r
            | .error _ => .error e
          else .error e
      | none => .error e

/-- The HTTP-level view of a settled Imagen `predict` response: `ok`/`status`
from the transport, the error fields extracted from a non-ok body
(lines 87-135), and the parsed JSON body of an ok response. -/
structure ImagenHttpResponse where
  ok : Bool
  status : Nat
  errorMessage : String := ""
  errorStatus : String := ""
  body : Option ImagenResponse := none

/-- The `!response.ok` branches of `generateImagesWithImagen`
(src/unnamed/part_000 lines 87-135). -/
def imagenHttpErrorResult (status : Nat) (errorMessage errorStatus : String) :
    ImagenGenResult :=
  if status = 400 && jsIncludes errorMessage "safety filter threshold prohibited" then
    { success := false, error := some "安全过滤器阻止了此提示",
      blockedFlag := some true, details := some errorMessage,
      statusCode := some status }
  else if status = 400 && jsIncludes errorMessage
      "You have chosen the \x27Allow (All ages)\x27 option for Person Generation, but this option is not available to you" then
    { success := false, error := some "人物生成权限错误",
      permissionIssue := some true, details := some errorMessage,
      statusCode := some status }
  else
    { success := false, error := some errorMessage, details := some errorStatus,
      statusCode := some status }

/-- `generateImagesWithImagen` (src/unnamed/part_000) from the point where
the outbound call settles: a thrown transport error is caught by the
function's catch-all (lines 276-279) and converted to
`{success:false, error:error.message}`; an ok response is processed by the
two-pass normalizer. -/
def generateImagesWithImagen (fetchOutcome : Except NetErr ImagenHttpResponse)
    (requestId outputDir : String) : ImagenGenResult :=
  match fetchOutcome with
  | .error e => { success := false, error := some e.message }
  | .ok resp =>
      if !resp.ok then imagenHttpErrorResult resp.status resp.errorMessage resp.errorStatus
      else processImagenResult resp.body requestId outputDir

structure GeminiHttpResponse where
  ok : Bool
  status : Nat
  body : GeminiResponse := {}

/-- `generateImagesWithGemini` (src/src/auth.js lines 444-606) from the point
where the outbound call settles: a thrown transport error is caught at
lines 598-601 and converted to `{success:false, error:error.message}`; a
non-ok status yields the `API 错误：<status>` failure; an ok response is
handed to `processGeminiResponse`. -/
def generateImagesWithGemini (fetchOutcome : Except NetErr GeminiHttpResponse)
    (requestId outputDir jsonDir : String) : GeminiGenResult :=
  match fetchOutcome with
  | .error e => { success := false, error := some e.message }
  | .ok resp =>
      if !resp.ok then
        { success := false, error := some ("API 错误：" ++ jsNumToString resp.status) }
      else processGeminiResponse resp.body requestId outputDir jsonDir

/-!
## Lemma development

### Decimal digit strings
-/

theorem natToCharsAux_eq (n : Nat) : ∀ fuel acc, n < fuel →
    natToCharsAux fuel n acc = natToChars n ++ acc := by
  induction n using Nat.strong_induction_on with
  | _ n ih =>
    intro fuel acc hfuel
    match fuel with
    | 0 => omega
    | fuel + 1 =>
      by_cases h10 : n < 10
      · simp [natToCharsAux, h10, natToChars]
      · have hdiv : n / 10 < n := Nat.div_lt_self (by omega) (by omega)
        have h2 : natToChars n = natToChars (n / 10) ++ [digitChar (n % 10)] := by
          show natToCharsAux (n + 1) n [] = _
          have hstep : natToCharsAux (n + 1) n []
              = natToCharsAux n (n / 10) [digitChar (n % 10)] := by
            simp [natToCharsAux, h10]
          rw [hstep, ih _ hdiv n _ (by omega)]
        have hstep : natToCharsAux (fuel + 1) n acc
            = natToCharsAux fuel (n / 10) (digitChar (n % 10) :: acc) := by
          simp [natToCharsAux, h10]
        rw [hstep, ih _ hdiv fuel _ (by omega), h2, List.append_assoc,
          List.singleton_append]

/-- Recursive unfolding of the decimal representation. -/
theorem natToChars_unfold (n : Nat) : natToChars n =
    if n < 10 then [digitChar n] else natToChars (n / 10) ++ [digitChar (n % 10)] := by
  by_cases h10 : n < 10
  · simp [natToChars, natToCharsAux, h10]
  · have hdiv : n / 10 < n := Nat.div_lt_self (by omega) (by omega)
    have hstep : natToCharsAux (n + 1) n []
        = natToCharsAux n (n / 10) [digitChar (n % 10)] := by
      simp [natToCharsAux, h10]
    simp only [natToChars] at hstep ⊢
    rw [hstep, natToCharsAux_eq _ n _ (by omega), if_neg h10]
    rfl

theorem digitChar_isDigit {k : Nat} (hk : k < 10) : (digitChar k).isDigit := by
  interval_cases k <;> decide

theorem natToChars_digits (n : Nat) : ∀ c ∈ natToChars n, c.isDigit := by
  induction n using Nat.strong_induction_on with
  | _ n ih =>
    rw [natToChars_unfold]
    by_cases h10 : n < 10
    · simp only [if_pos h10, List.mem_singleton]
      rintro c rfl; exact digitChar_isDigit h10
    · simp only [if_neg h10, List.mem_append, List.mem_singleton]
      rintro c (hc | rfl)
      · exact ih _ (Nat.div_lt_self (by omega) (by omega)) c hc
      · exact digitChar_isDigit (Nat.mod_lt _ (by omega))

theorem natToChars_ne_nil (n : Nat) : natToChars n ≠ [] := by
  rw [natToChars_unfold]
  by_cases h10 : n < 10 <;> simp [h10]

theorem digitChar_toNat {k : Nat} (hk : k < 10) : (digitChar k).toNat = 48 + k := by
  interval_cases k <;> decide

/-- The digit-accumulating fold recovers the number. -/
theorem natToChars_foldl (n : Nat) : ∀ a : Nat,
    (natToChars n).foldl (fun acc c => acc * 10 + (c.toNat - 48)) a
      = a * 10 ^ (natToChars n).length + n := by
  induction n using Nat.strong_induction_on with
  | _ n ih =>
    intro a
    rw [natToChars_unfold]
    by_cases h10 : n < 10
    · simp [if_pos h10, digitChar_toNat h10]
    · have hdiv : n / 10 < n := Nat.div_lt_self (by omega) (by omega)
      simp only [if_neg h10, List.foldl_append, List.foldl_cons, List.foldl_nil,
        List.length_append, List.length_singleton]
      rw [ih _ hdiv a, digitChar_toNat (Nat.mod_lt _ (by omega))]
      rw [pow_succ]
      have h48 : 48 + n % 10 - 48 = n % 10 := by omega
      rw [h48]
      generalize (10 : Nat) ^ (natToChars (n / 10)).length = B
      have key : (a * B + n / 10) * 10 + n % 10
          = a * (B * 10) + (n / 10 * 10 + n % 10) := by ring
      rw [key]
      congr 1
      omega

theorem parseDigits_natToChars (n : Nat) : parseDigits (natToChars n) = some n := by
  have hne := natToChars_ne_nil n
  have hdig := natToChars_digits n
  match hmk : natToChars n with
  | [] => exact absurd hmk hne
  | c :: cs =>
    have hall : (c :: cs).all Char.isDigit = true := by
      rw [List.all_eq_true]
      intro x hx
      exact hdig x (hmk ▸ hx)
    simp only [parseDigits, hall, if_true]
    have := natToChars_foldl n 0
    rw [hmk] at this
    simp only [this, Nat.zero_mul, Nat.zero_add]

theorem canonicalIndex_jsNum (n : Nat) : canonicalIndex (jsNumToString n) = some n := by
  simp [canonicalIndex, jsNumToString, parseDigits_natToChars]

theorem jsNumToString_inj {m n : Nat} (h : jsNumToString m = jsNumToString n) :
    m = n := by
  have hm := canonicalIndex_jsNum m
  rw [h, canonicalIndex_jsNum n] at hm
  exact (Option.some_inj.mp hm).symm

/-- A canonical index key is the interpolation of its value. -/
theorem canonicalIndex_eq_some {s : String} {n : Nat}
    (h : canonicalIndex s = some n) : s = jsNumToString n := by
  unfold canonicalIndex at h
  split at h
  · split at h
    · cases h
      rename_i hc
      rw [jsNumToString, hc]
    · simp at h
  · simp at h

/-!
### Parsing the generated path strings back into segments
-/

theorem takeWhile_all_append {p : Char → Bool} {l : List Char} (hl : ∀ c ∈ l, p c)
    {d : Char} (hd : p d = false) (rest : List Char) :
    (l ++ d :: rest).takeWhile p = l ∧ (l ++ d :: rest).dropWhile p = d :: rest := by
  induction l with
  | nil => simp [List.takeWhile_cons, List.dropWhile_cons, hd]
  | cons c cs ih =>
    have hc : p c = true := hl c (by simp)
    have ih' := ih fun x hx => hl x (by simp [hx])
    simp [List.takeWhile_cons, List.dropWhile_cons, hc, ih'.1, ih'.2]

theorem dropWhile_length_le (p : Char → Bool) (l : List Char) :
    (l.dropWhile p).length ≤ l.length := by
  have := congrArg List.length (List.takeWhile_append_dropWhile p l)
  simp only [List.length_append] at this
  omega

theorem normalizeBracketsAux_congr :
    ∀ fuel1 fuel2 (cs : List Char), cs.length ≤ fuel1 → cs.length ≤ fuel2 →
      normalizeBracketsAux fuel1 cs = normalizeBracketsAux fuel2 cs := by
  intro fuel1
  induction fuel1 with
  | zero =>
    intro fuel2 cs h1 _
    have : cs = [] := List.length_eq_zero.mp (Nat.le_zero.mp h1)
    subst this
    cases fuel2 <;> rfl
  | succ f ih =>
    intro fuel2 cs h1 h2
    match cs with
    | [] => cases fuel2 <;> rfl
    | c :: rest =>
      match fuel2 with
      | 0 => simp at h2
      | f2 + 1 =>
        have hr1 : rest.length ≤ f := by simp at h1; omega
        have hr2 : rest.length ≤ f2 := by simp at h2; omega
        have hdw : (rest.dropWhile Char.isDigit).length ≤ rest.length :=
          dropWhile_length_le _ _
        have htl : (rest.dropWhile Char.isDigit).tail.length ≤ rest.length := by
          have := List.length_tail (rest.dropWhile Char.isDigit)
          omega
        by_cases hc : c = '['
        · subst hc
          simp only [normalizeBracketsAux, if_pos rfl]
          by_cases hds : (rest.takeWhile Char.isDigit).isEmpty
          · simp only [hds, if_true]
            rw [ih f2 rest hr1 hr2]
          · by_cases hh : (rest.dropWhile Char.isDigit).head? = some ']'
            · rw [ih f2 (rest.dropWhile Char.isDigit).tail (by omega) (by omega)]
              simp [hds, hh]
            · rw [ih f2 (rest.dropWhile Char.isDigit) (by omega) (by omega)]
              simp [hds, hh]
        · simp only [normalizeBracketsAux, if_neg hc]
          rw [ih f2 rest hr1 hr2]

theorem normalizeBracketsAux_ge (fuel : Nat) (cs : List Char)
    (h : cs.length ≤ fuel) : normalizeBracketsAux fuel cs = normalizeBrackets cs :=
  normalizeBracketsAux_congr fuel cs.length cs h le_rfl

/-- A character other than `[` passes through the replacement. -/
theorem normBr_cons_ne {c : Char} (hc : c ≠ '[') (cs : List Char) :
    normalizeBrackets (c :: cs) = c :: normalizeBrackets cs := by
  show normalizeBracketsAux (cs.length + 1) (c :: cs) = _
  simp only [normalizeBracketsAux, if_neg hc]
  rfl

/-- A bracket-free block passes through the replacement. -/
theorem normBr_append_ne {l : List Char} (hl : ∀ c ∈ l, c ≠ '[') (cs : List Char) :
    normalizeBrackets (l ++ cs) = l ++ normalizeBrackets cs := by
  induction l with
  | nil => rfl
  | cons c t ih =>
    have hc : c ≠ '[' := hl c (by simp)
    rw [List.cons_append, normBr_cons_ne hc, ih fun x hx => hl x (by simp [hx])]
    rfl

/-- A bracketed digit run is replaced by a dot and the digits. -/
theorem normBr_bracket {ds : List Char} (hne : ds ≠ [])
    (hdig : ∀ c ∈ ds, c.isDigit) (rest : List Char) :
    normalizeBrackets ('[' :: (ds ++ (']' :: rest)))
      = '.' :: (ds ++ normalizeBrackets rest) := by
  have hcl : (']' : Char).isDigit = false := by decide
  have htw := takeWhile_all_append hdig hcl rest
  show normalizeBracketsAux ((ds ++ ']' :: rest).length + 1) ('[' :: (ds ++ ']' :: rest)) = _
  simp only [normalizeBracketsAux, if_pos rfl, htw.1, htw.2]
  have hde : ds.isEmpty = false := by cases ds with
    | nil => exact absurd rfl hne
    | cons a as => rfl
  simp only [List.head?_cons, List.tail_cons]
  rw [normalizeBracketsAux_ge _ rest (by simp [List.length_append]; omega)]
  simp [hde]

theorem splitOn_nomem {l : List Char} (h : ∀ x ∈ l, x ≠ '.') :
    l.splitOn '.' = [l] :=
  List.splitOnP_eq_single _ _ (fun x hx => by simpa using h x hx)

theorem splitOn_break {l rest : List Char} (h : ∀ x ∈ l, x ≠ '.') :
    (l ++ '.' :: rest).splitOn '.' = l :: rest.splitOn '.' :=
  List.splitOnP_first _ _ (fun x hx => by simpa using h x hx) '.' (by simp) rest

theorem natToChars_ne_dot (i : Nat) : ∀ x ∈ natToChars i, x ≠ '.' := by
  intro x hx heq
  have hd := natToChars_digits i x hx
  rw [heq] at hd
  exact absurd hd (by decide)

theorem natToChars_ne_br (i : Nat) : ∀ x ∈ natToChars i, x ≠ '[' := by
  intro x hx heq
  have hd := natToChars_digits i x hx
  rw [heq] at hd
  exact absurd hd (by decide)

/-- The Imagen path round-trips through the replace/split parsing. -/
theorem pathSegments_imagen (i : Nat) :
    pathSegments (imagenPathStr i)
      = ["predictions", jsNumToString i, "bytesBase64Encoded"] := by
  have h1 : (imagenPathStr i).data
      = "predictions".data
        ++ ('[' :: (natToChars i ++ (']' :: ('.' :: "bytesBase64Encoded".data)))) := rfl
  have hb : normalizeBrackets "bytesBase64Encoded".data = "bytesBase64Encoded".data := rfl
  have h2 : normalizeBrackets (imagenPathStr i).data
      = "predictions".data
        ++ ('.' :: (natToChars i ++ ('.' :: "bytesBase64Encoded".data))) := by
    rw [h1, normBr_append_ne (by decide)]
    have hbr := normBr_bracket (natToChars_ne_nil i) (natToChars_digits i)
      ('.' :: "bytesBase64Encoded".data)
    simp only [List.cons_append, List.append_assoc] at hbr ⊢
    rw [hbr, normBr_cons_ne (by decide), hb]
  unfold pathSegments
  rw [h2, splitOn_break (by decide), splitOn_break (natToChars_ne_dot i),
    splitOn_nomem (by decide)]
  rfl

/-- The Gemini path round-trips through the replace/split parsing. -/
theorem pathSegments_gemini (i j : Nat) :
    pathSegments (geminiPathStr i j)
      = ["candidates", jsNumToString i, "content", "parts", jsNumToString j,
          "inlineData", "data"] := by
  have h1 : (geminiPathStr i j).data
      = "candidates".data
        ++ ('[' :: (natToChars i
          ++ (']' :: ('.' :: ("content".data
            ++ ('.' :: ("parts".data
              ++ ('[' :: (natToChars j
                ++ (']' :: ('.' :: ("inlineData".data
                  ++ ('.' :: "data".data))))))))))))) := by
    simp only [geminiPathStr, String.data_append]
    simp [jsNumToString, List.append_assoc]
  have hd : normalizeBrackets "data".data = "data".data := rfl
  have h2 : normalizeBrackets (geminiPathStr i j).data
      = "candidates".data
        ++ ('.' :: (natToChars i
          ++ ('.' :: ("content".data
            ++ ('.' :: ("parts".data
              ++ ('.' :: (natToChars j
                ++ ('.' :: ("inlineData".data
                  ++ ('.' :: "data".data))))))))))) := by
    rw [h1]
    rw [@normBr_append_ne "candidates".data (by decide) _]
    rw [normBr_bracket (natToChars_ne_nil i) (natToChars_digits i) _]
    rw [@normBr_cons_ne '.' (by decide) _]
    rw [@normBr_append_ne "content".data (by decide) _]
    rw [@normBr_cons_ne '.' (by decide) _]
    rw [@normBr_append_ne "parts".data (by decide) _]
    rw [normBr_bracket (natToChars_ne_nil j) (natToChars_digits j) _]
    rw [@normBr_cons_ne '.' (by decide) _]
    rw [@normBr_append_ne "inlineData".data (by decide) _]
    rw [@normBr_cons_ne '.' (by decide) _, hd]
  unfold pathSegments
  rw [h2, splitOn_break (by decide), splitOn_break (natToChars_ne_dot i),
    splitOn_break (by decide), splitOn_break (by decide),
    splitOn_break (natToChars_ne_dot j), splitOn_break (by decide),
    splitOn_nomem (by decide)]
  rfl

/-!
### Metatheory of the path accessors

`Diverge qs ps` holds when the two segment lists disagree at some position
present in both — i.e. neither path is a prefix of the other, so a write at
`ps` cannot be observed at `qs`.
-/

def Diverge : List String → List String → Prop
  | a :: as, b :: bs => a ≠ b ∨ (a = b ∧ Diverge as bs)
  | _, _ => False

theorem Diverge.symm : ∀ {as bs : List String}, Diverge as bs → Diverge bs as
  | a :: as, b :: bs, h => by
    rcases h with h | ⟨rfl, h⟩
    · exact Or.inl (Ne.symm h)
    · exact Or.inr ⟨rfl, h.symm⟩

theorem getSegs_cons_null (s : String) (rest : List String) :
    getSegs (some .vNull) (s :: rest) = .error () := rfl

theorem getSegs_nil (cur : Option JsValue) : getSegs cur [] = .ok cur := by
  cases cur <;> rfl

theorem getSegs_cons {v : JsValue} (hv : v ≠ .vNull) (s : String) (rest : List String) :
    getSegs (some v) (s :: rest) = getSegs (propOf v s) rest := by
  cases v
  case vNull => exact absurd rfl hv
  all_goals rfl

theorem getSegs_none (segs : List String) (h : segs ≠ []) :
    getSegs none segs = .ok none := by
  cases segs with
  | nil => exact absurd rfl h
  | cons s rest => rfl

/-- Primitive (non-object, non-array, non-null) values. -/
def JsValue.isPrim : JsValue → Bool
  | .vBool _ => true
  | .vNum _ => true
  | .vStr _ => true
  | _ => false

theorem lookupField_updateField_self :
    ∀ (fs : List (String × JsValue)) (k : String) (x : JsValue),
      lookupField (updateField fs k x) k = some x := by
  intro fs k x
  induction fs with
  | nil => simp [updateField, lookupField]
  | cons kv fs ih =>
    obtain ⟨k', v'⟩ := kv
    by_cases hk : k' = k
    · subst hk; simp [updateField, lookupField]
    · simp [updateField, lookupField, hk, ih]

theorem lookupField_updateField_ne :
    ∀ (fs : List (String × JsValue)) (k q : String) (x : JsValue), q ≠ k →
      lookupField (updateField fs k x) q = lookupField fs q := by
  intro fs k q x hq
  induction fs with
  | nil =>
    simp only [updateField, lookupField]
    rw [if_neg (fun h => hq h.symm)]
  | cons kv fs ih =>
    obtain ⟨k', v'⟩ := kv
    by_cases hk : k' = k
    · subst hk
      simp only [updateField, if_pos rfl, lookupField]
      rw [if_neg (fun h => hq h.symm), if_neg (fun h => hq h.symm)]
    · simp only [updateField, if_neg hk, lookupField]
      by_cases hq' : k' = q
      · rw [if_pos hq', if_pos hq']
      · rw [if_neg hq', if_neg hq', ih]

theorem jsGetProp_eq {v : JsValue} (hv : v ≠ .vNull) (k : String) :
    jsGetProp v k = .ok (propOf v k) := by
  cases v
  case vNull => exact absurd rfl hv
  all_goals rfl

theorem propOf_prim {v : JsValue} (hp : v.isPrim) (k : String) :
    propOf v k = none ∨ ∃ w, propOf v k = some w ∧ w.isPrim := by
  cases v
  case vStr s =>
    by_cases hk : k = "length"
    · subst hk
      exact Or.inr ⟨.vNum s.length, by simp [propOf], rfl⟩
    · simp only [propOf, if_neg hk]
      cases hci : canonicalIndex k with
      | none => exact Or.inl rfl
      | some n =>
        cases hcg : s.data.get? n with
        | none =>
          refine Or.inl ?_
          show (s.data.get? n).map _ = none
          rw [hcg]
          rfl
        | some c =>
          refine Or.inr ⟨.vStr (String.mk [c]), ?_, rfl⟩
          show (s.data.get? n).map _ = _
          rw [hcg]
          rfl
  case vNum n => exact Or.inl rfl
  case vBool b => exact Or.inl rfl
  all_goals simp [JsValue.isPrim] at hp

theorem setSegs_cons_propNone {v : JsValue} {s : String} (hv : v ≠ .vNull)
    (h : propOf v s = none) (s2 : String) (rest2 : List String) (x : JsValue) :
    setSegs v (s :: s2 :: rest2) x = .ok none := by
  simp only [setSegs, jsGetProp_eq hv, h]
  rfl

theorem setSegs_cons_propSome {v c : JsValue} {s : String} (hv : v ≠ .vNull)
    (h : propOf v s = some c) (s2 : String) (rest2 : List String) (x : JsValue) :
    setSegs v (s :: s2 :: rest2) x
      = (setSegs c (s2 :: rest2) x) >>= fun r =>
          match r with
          | none => .ok none
          | some c' => (jsSetProp v s c').map some := by
  simp only [setSegs, jsGetProp_eq hv, h]
  rfl

theorem setSegs_prim : ∀ (ps : List String) (v x : JsValue), v.isPrim →
    setSegs v ps x = .ok none ∨ setSegs v ps x = .error () := by
  intro ps
  induction ps with
  | nil => intro v x _; exact Or.inl rfl
  | cons s rest ih =>
    intro v x hp
    have hv : v ≠ .vNull := by
      cases v <;> simp [JsValue.isPrim] at hp <;> simp
    match rest with
    | [] =>
      cases v <;> simp [JsValue.isPrim] at hp <;> exact Or.inr rfl
    | s2 :: rest2 =>
      rcases propOf_prim hp s with hnone | ⟨w, hw, hwp⟩
      · exact Or.inl (setSegs_cons_propNone hv hnone s2 rest2 x)
      · rw [setSegs_cons_propSome hv hw s2 rest2 x]
        rcases ih w x hwp with h | h <;> rw [h]
        · exact Or.inl rfl
        · exact Or.inr rfl

theorem canonicalIndex_length : canonicalIndex "length" = none := rfl

theorem canonicalIndex_inj {q k : String} {m n : Nat} (hq : canonicalIndex q = some m)
    (hk : canonicalIndex k = some n) (hne : q ≠ k) : m ≠ n := by
  intro h
  subst h
  exact hne ((canonicalIndex_eq_some hq).trans (canonicalIndex_eq_some hk).symm)

theorem except_bind_ok {α β : Type} {e : Except Unit α} {f : α → Except Unit β} {b : β}
    (h : (e >>= f) = .ok b) : ∃ a, e = .ok a ∧ f a = .ok b := by
  cases e with
  | error e' => exact absurd h (by simp [Bind.bind, Except.bind])
  | ok a => exact ⟨a, rfl, by simpa [Bind.bind, Except.bind] using h⟩

theorem exceptMap_some_ok {e : Except Unit JsValue} {v' : JsValue} :
    Except.map some e = (.ok (some v') : Except Unit (Option JsValue)) ↔ e = .ok v' := by
  cases e <;> simp [Except.map]

/-- What a successful property assignment at an existing key does: every
other key is unchanged, the result is a mutable container, and the assigned
key now holds the new value (or, for the JSON-invisible array corner cases,
the container is unchanged). -/
theorem jsSetProp_spec {v x v' c : JsValue} {k : String}
    (hget : propOf v k = some c) (hset : jsSetProp v k x = .ok v') :
    (∀ q, q ≠ k → propOf v' q = propOf v q) ∧
    v' ≠ .vNull ∧ v'.isPrim = false ∧
    (v' = v ∨ propOf v' k = some x) := by
  cases v with
  | vNull => exact absurd hset (by simp [jsSetProp])
  | vBool b => exact absurd hset (by simp [jsSetProp])
  | vNum n => exact absurd hset (by simp [jsSetProp])
  | vStr s => exact absurd hset (by simp [jsSetProp])
  | vObj fs =>
    have hv' : v' = .vObj (updateField fs k x) := by
      simpa [jsSetProp] using hset.symm
    subst hv'
    refine ⟨fun q hq => ?_, by simp, rfl, Or.inr ?_⟩
    · show lookupField (updateField fs k x) q = lookupField fs q
      exact lookupField_updateField_ne fs k q x hq
    · exact lookupField_updateField_self fs k x
  | vArr xs =>
    cases hci : canonicalIndex k with
    | none =>
      have hv' : v' = .vArr xs := by
        simp only [jsSetProp, hci] at hset
        simpa using hset.symm
      subst hv'
      exact ⟨fun q _ => rfl, by simp, rfl, Or.inl rfl⟩
    | some n =>
      have hkl : k ≠ "length" := by
        intro h; rw [h, canonicalIndex_length] at hci; exact absurd hci (by simp)
      have hgn : xs.get? n = some c := by
        simpa [propOf, if_neg hkl, hci] using hget
      have hlt : n < xs.length := by
        by_contra hh
        push_neg at hh
        rw [List.get?_eq_getElem?, List.getElem?_eq_none hh] at hgn
        exact absurd hgn (by simp)
      have hv' : v' = .vArr (xs.set n x) := by
        simp only [jsSetProp, hci, setIndex, if_pos hlt] at hset
        simpa using hset.symm
      subst hv'
      refine ⟨fun q hq => ?_, by simp, rfl, Or.inr ?_⟩
      · by_cases hql : q = "length"
        · subst hql
          simp [propOf, List.length_set]
        · simp only [propOf, if_neg hql]
          cases hcq : canonicalIndex q with
          | none => rfl
          | some m =>
            have hmn : m ≠ n := canonicalIndex_inj hcq hci hq
            simp [List.get?_eq_getElem?, List.getElem?_set_ne (fun hh => hmn hh.symm)]
      · simp only [propOf, if_neg hkl, hci]
        show (xs.set n x).get? n = some x
        simp [List.get?_eq_getElem?, List.getElem?_set_eq_of_lt, hlt]

theorem diverge_nil_right {qs : List String} (h : Diverge qs []) : False := by
  cases qs <;> exact h

/-- Frame property: a successful assignment along an existing path cannot be
observed along any diverging path. -/
theorem setSegs_frame : ∀ (ps : List String) (v : JsValue) {w x v' : JsValue}
    (qs : List String),
    getSegs (some v) ps = .ok (some w) →
    setSegs v ps x = .ok (some v') →
    Diverge qs ps →
    getSegs (some v') qs = getSegs (some v) qs := by
  intro ps
  induction ps with
  | nil =>
    intro v w x v' qs _ hset _
    exact absurd hset (by simp [setSegs])
  | cons s rest ih =>
    intro v w x v' qs hget hset hdiv
    have hv : v ≠ .vNull := by
      rintro rfl
      rw [getSegs_cons_null] at hget
      exact absurd hget (by simp)
    match rest with
    | [] =>
      have hprop : propOf v s = some w := by
        rw [getSegs_cons hv] at hget
        simpa [getSegs] using hget
      have hsp : jsSetProp v s x = .ok v' := by
        have : Except.map some (jsSetProp v s x) = .ok (some v') := hset
        exact exceptMap_some_ok.mp this
      obtain ⟨hne, hvn, _, _⟩ := jsSetProp_spec hprop hsp
      match qs with
      | [] => exact absurd hdiv (by exact id)
      | q :: qs' =>
        rcases hdiv with hq | ⟨rfl, hd⟩
        · rw [getSegs_cons hvn, getSegs_cons hv, hne q hq]
        · exact absurd hd diverge_nil_right
    | s2 :: rest2 =>
      have hprop : ∃ c, propOf v s = some c := by
        rw [getSegs_cons hv] at hget
        cases hp : propOf v s with
        | none =>
          rw [hp, getSegs_none _ (by simp)] at hget
          exact absurd hget (by simp)
        | some c => exact ⟨c, rfl⟩
      obtain ⟨c, hc⟩ := hprop
      have hgetc : getSegs (some c) (s2 :: rest2) = .ok (some w) := by
        rw [getSegs_cons hv, hc] at hget
        exact hget
      have hsetc : ∃ c', setSegs c (s2 :: rest2) x = .ok (some c')
          ∧ jsSetProp v s c' = .ok v' := by
        rw [setSegs_cons_propSome hv hc] at hset
        obtain ⟨r, hr, hfr⟩ := except_bind_ok hset
        match r with
        | none => exact absurd hfr (by simp)
        | some c' => exact ⟨c', hr, exceptMap_some_ok.mp hfr⟩
      obtain ⟨c', hsc, hsp⟩ := hsetc
      obtain ⟨hne, hvn, _, hat⟩ := jsSetProp_spec hc hsp
      match qs with
      | [] => exact absurd hdiv (by exact id)
      | q :: qs' =>
        rcases hdiv with hq | ⟨rfl, hd⟩
        · rw [getSegs_cons hvn, getSegs_cons hv, hne q hq]
        · rcases hat with hsame | hat
          · rw [hsame]
          · rw [getSegs_cons hvn, getSegs_cons hv, hat, hc]
            exact ih c qs' hgetc hsc hd

/-- A value whose property holds a string longer than the masking threshold
is an object or an array (string character indexing yields only one-character
strings, `length` yields a number). -/
theorem propOf_long_string {v : JsValue} {k : String} {s : String}
    (hget : propOf v k = some (.vStr s)) (hlen : 100 < s.length) :
    (∃ fs, v = .vObj fs) ∨
    (∃ xs n, v = .vArr xs ∧ canonicalIndex k = some n
      ∧ xs.get? n = some (.vStr s) ∧ k ≠ "length") := by
  cases v with
  | vNull => exact absurd hget (by simp [propOf])
  | vBool b => exact absurd hget (by simp [propOf])
  | vNum n => exact absurd hget (by simp [propOf])
  | vObj fs => exact Or.inl ⟨fs, rfl⟩
  | vStr t =>
    by_cases hk : k = "length"
    · rw [hk] at hget
      exact absurd hget (by simp [propOf])
    · simp only [propOf, if_neg hk] at hget
      cases hci : canonicalIndex k with
      | none => rw [hci] at hget; exact absurd hget (by simp)
      | some n =>
        rw [hci] at hget
        cases hcg : t.data.get? n with
        | none =>
          rw [show ((some n).bind t.data.get? : Option Char) = none by
            show t.data.get? n = none; exact hcg] at hget
          exact absurd hget (by simp)
        | some ch =>
          rw [show ((some n).bind t.data.get? : Option Char) = some ch by
            show t.data.get? n = some ch; exact hcg] at hget
          have h2 : (some (JsValue.vStr (String.mk [ch])) : Option JsValue)
              = some (.vStr s) := hget
          injection Option.some_inj.mp h2 with hss
          rw [← hss] at hlen
          exact absurd hlen (by simp [String.length])
  | vArr xs =>
    by_cases hk : k = "length"
    · rw [hk] at hget
      exact absurd hget (by simp [propOf])
    · simp only [propOf, if_neg hk] at hget
      cases hci : canonicalIndex k with
      | none => rw [hci] at hget; exact absurd hget (by simp)
      | some n =>
        rw [hci] at hget
        exact Or.inr ⟨xs, n, rfl, rfl, hget, hk⟩

theorem setSegs_prim_not_some {v x c' : JsValue} {ps : List String}
    (hp : v.isPrim) (h : setSegs v ps x = .ok (some c')) : False := by
  rcases setSegs_prim ps v x hp with hh | hh <;> rw [hh] at h <;> exact absurd h (by simp)

/-- Assignment along a path whose current value is a string longer than the
masking threshold always succeeds, and the new value is readable back at the
same path. -/
theorem setSegs_long : ∀ (ps : List String) (v x : JsValue) (s : String), ps ≠ [] →
    getSegs (some v) ps = .ok (some (.vStr s)) → 100 < s.length →
    ∃ v', setSegs v ps x = .ok (some v') ∧ getSegs (some v') ps = .ok (some x) := by
  intro ps
  induction ps with
  | nil => intro v x s h _ _; exact absurd rfl h
  | cons s1 rest ih =>
    intro v x s _ hget hlen
    have hv : v ≠ .vNull := by
      rintro rfl
      rw [getSegs_cons_null] at hget
      exact absurd hget (by simp)
    match rest with
    | [] =>
      have hprop : propOf v s1 = some (.vStr s) := by
        rw [getSegs_cons hv] at hget
        simpa [getSegs] using hget
      rcases propOf_long_string hprop hlen with ⟨fs, rfl⟩ | ⟨xs, n, rfl, hci, hgn, hkl⟩
      · refine ⟨.vObj (updateField fs s1 x), rfl, ?_⟩
        rw [getSegs_cons (by simp), getSegs_nil]
        show Except.ok (lookupField (updateField fs s1 x) s1)
          = (Except.ok (some x) : Except Unit (Option JsValue))
        rw [lookupField_updateField_self]
      · have hlt : n < xs.length := by
          by_contra hh
          push_neg at hh
          rw [List.get?_eq_getElem?, List.getElem?_eq_none hh] at hgn
          exact absurd hgn (by simp)
        refine ⟨.vArr (xs.set n x), ?_, ?_⟩
        · show Except.map some (jsSetProp (.vArr xs) s1 x) = _
          simp [jsSetProp, hci, setIndex, if_pos hlt, Except.map]
        · rw [getSegs_cons (by simp), getSegs_nil]
          show Except.ok (propOf (.vArr (xs.set n x)) s1)
            = (Except.ok (some x) : Except Unit (Option JsValue))
          simp only [propOf, if_neg hkl, hci]
          show Except.ok (((xs.set n x).get? n : Option JsValue))
            = (Except.ok (some x) : Except Unit (Option JsValue))
          simp [List.get?_eq_getElem?, List.getElem?_set_eq_of_lt, hlt]
    | s2 :: rest2 =>
      have hprop : ∃ c, propOf v s1 = some c := by
        rw [getSegs_cons hv] at hget
        cases hp : propOf v s1 with
        | none =>
          rw [hp, getSegs_none _ (by simp)] at hget
          exact absurd hget (by simp)
        | some c => exact ⟨c, rfl⟩
      obtain ⟨c, hc⟩ := hprop
      have hgetc : getSegs (some c) (s2 :: rest2) = .ok (some (.vStr s)) := by
        rw [getSegs_cons hv, hc] at hget
        exact hget
      obtain ⟨c', hsc, hgc⟩ := ih c x s (by simp) hgetc hlen
      cases v with
      | vNull => exact absurd rfl hv
      | vBool b => exact absurd hc (by simp [propOf])
      | vNum m => exact absurd hc (by simp [propOf])
      | vStr t =>
        rcases propOf_prim (v := .vStr t) rfl s1 with hh | ⟨w, hw, hwp⟩
        · rw [hh] at hc; exact absurd hc (by simp)
        · rw [hw] at hc
          cases Option.some_inj.mp hc
          exact absurd hsc (fun h => setSegs_prim_not_some hwp h)
      | vObj fs =>
        refine ⟨.vObj (updateField fs s1 c'), ?_, ?_⟩
        · rw [setSegs_cons_propSome hv hc, hsc]
          rfl
        · rw [getSegs_cons (by simp)]
          show getSegs (lookupField (updateField fs s1 c') s1) _ = _
          rw [lookupField_updateField_self]
          exact hgc
      | vArr xs =>
        have hkl : s1 ≠ "length" := by
          intro hh
          rw [hh] at hc
          have hcv : JsValue.vNum xs.length = c := by simpa [propOf] using hc
          exact setSegs_prim_not_some (by rw [← hcv]; rfl) hsc
        cases hci : canonicalIndex s1 with
        | none =>
          rw [show propOf (.vArr xs) s1 = none by simp [propOf, if_neg hkl, hci]] at hc
          exact absurd hc (by simp)
        | some n =>
          have hgn : xs.get? n = some c := by
            simpa [propOf, if_neg hkl, hci] using hc
          have hlt : n < xs.length := by
            by_contra hh
            push_neg at hh
            rw [List.get?_eq_getElem?, List.getElem?_eq_none hh] at hgn
            exact absurd hgn (by simp)
          refine ⟨.vArr (xs.set n c'), ?_, ?_⟩
          · rw [setSegs_cons_propSome hv hc, hsc]
            show (jsSetProp (.vArr xs) s1 c').map some = _
            simp [jsSetProp, hci, setIndex, if_pos hlt, Except.map]
          · rw [getSegs_cons (by simp)]
            have : propOf (.vArr (xs.set n c')) s1 = some c' := by
              simp only [propOf, if_neg hkl, hci]
              show ((xs.set n c').get? n : Option JsValue) = some c'
              simp [List.get?_eq_getElem?, List.getElem?_set_eq_of_lt, hlt]
            rw [this]
            exact hgc

/-!
### The masking fold
-/

theorem pathSegments_ne_nil (p : String) : pathSegments p ≠ [] := by
  unfold pathSegments
  intro h
  rw [List.map_eq_nil_iff] at h
  simp only [List.splitOn] at h
  exact List.splitOnP_ne_nil _ _ h

/-- The effect of one masking pass on the value observed at a path: a string
longer than 100 characters becomes the placeholder, everything else is
untouched. -/
def maskedView : Except Unit (Option JsValue) → Except Unit (Option JsValue)
  | .ok (some (.vStr s)) =>
      .ok (some (.vStr (if 100 < s.length then maskPlaceholder s.length else s)))
  | e => e

theorem maskStep_cases {m m' : JsValue} {p : String} (h : maskStep m p = .ok m') :
    (m' = m ∧ ∀ s : String, getValueAtPath m p = .ok (some (.vStr s)) → s.length ≤ 100) ∨
    (∃ s : String, getValueAtPath m p = .ok (some (.vStr s)) ∧ 100 < s.length ∧
      setSegs m (pathSegments p) (.vStr (maskPlaceholder s.length)) = .ok (some m') ∧
      getSegs (some m') (pathSegments p)
        = .ok (some (.vStr (maskPlaceholder s.length)))) := by
  unfold maskStep at h
  obtain ⟨vo, hvo, hf⟩ := except_bind_ok h
  match vo with
  | none =>
    left
    refine ⟨by simpa using hf.symm, fun s hs => ?_⟩
    rw [hvo] at hs
    simp at hs
  | some (.vStr s) =>
    have hf' : (if 100 < s.length then
        setValueAtPath m p (.vStr (maskPlaceholder s.length))
        else .ok m) = .ok m' := hf
    by_cases hlen : 100 < s.length
    · right
      refine ⟨s, hvo, hlen, ?_⟩
      rw [if_pos hlen] at hf'
      obtain ⟨v', hset, hget'⟩ := setSegs_long (pathSegments p) m
        (.vStr (maskPlaceholder s.length)) s (pathSegments_ne_nil p) hvo hlen
      have hm' : v' = m' := by
        unfold setValueAtPath at hf'
        rw [hset] at hf'
        simpa using hf'
      subst hm'
      exact ⟨hset, hget'⟩
    · left
      rw [if_neg hlen] at hf'
      refine ⟨by simpa using hf'.symm, fun s' hs' => ?_⟩
      rw [hvo] at hs'
      have hss : s = s' := by simpa using hs'
      rw [← hss]
      omega
  | some .vNull =>
    left
    exact ⟨by simpa using hf.symm, fun s hs => by rw [hvo] at hs; simp at hs⟩
  | some (.vBool b) =>
    left
    exact ⟨by simpa using hf.symm, fun s hs => by rw [hvo] at hs; simp at hs⟩
  | some (.vNum n) =>
    left
    exact ⟨by simpa using hf.symm, fun s hs => by rw [hvo] at hs; simp at hs⟩
  | some (.vArr xs) =>
    left
    exact ⟨by simpa using hf.symm, fun s hs => by rw [hvo] at hs; simp at hs⟩
  | some (.vObj fs) =>
    left
    exact ⟨by simpa using hf.symm, fun s hs => by rw [hvo] at hs; simp at hs⟩

theorem applyMasks_frame : ∀ (paths : List String) (m mF : JsValue) (qs : List String),
    applyMasks paths m = .ok mF →
    (∀ p ∈ paths, Diverge qs (pathSegments p)) →
    getSegs (some mF) qs = getSegs (some m) qs := by
  intro paths
  induction paths with
  | nil =>
    intro m mF qs h _
    have : m = mF := by simpa [applyMasks] using h
    rw [this]
  | cons p rest ih =>
    intro m mF qs h hdiv
    obtain ⟨m1, h1, h2⟩ := except_bind_ok (by simpa [applyMasks] using h)
    rcases maskStep_cases h1 with ⟨heq, _⟩ | ⟨s, hget, _, hset, _⟩
    · subst heq
      exact ih m1 mF qs h2 fun q hq => hdiv q (by simp [hq])
    · have hfr := setSegs_frame (pathSegments p) m qs hget hset (hdiv p (by simp))
      rw [ih m1 mF qs h2 fun q hq => hdiv q (by simp [hq]), hfr]

theorem applyMasks_at_path : ∀ (paths : List String) (m mF : JsValue),
    applyMasks paths m = .ok mF →
    List.Pairwise (fun a b => Diverge (pathSegments a) (pathSegments b)) paths →
    ∀ p ∈ paths,
      getSegs (some mF) (pathSegments p)
        = maskedView (getSegs (some m) (pathSegments p)) := by
  intro paths
  induction paths with
  | nil => intro m mF _ _ p hp; simp at hp
  | cons p0 rest ih =>
    intro m mF h hpw p hp
    obtain ⟨m1, h1, h2⟩ := except_bind_ok (by simpa [applyMasks] using h)
    rw [List.pairwise_cons] at hpw
    obtain ⟨hd, hpwr⟩ := hpw
    rcases List.mem_cons.mp hp with rfl | hpr
    · -- the path processed by this step
      have hrest : getSegs (some mF) (pathSegments p)
          = getSegs (some m1) (pathSegments p) :=
        applyMasks_frame rest m1 mF (pathSegments p) h2
          fun q hq => hd q hq
      rcases maskStep_cases h1 with ⟨heq, hshort⟩ | ⟨s, hget, hlen, _, hafter⟩
      · subst heq
        rw [hrest]
        cases hg : getSegs (some m1) (pathSegments p) with
        | error e => rfl
        | ok vo =>
          match vo with
          | none => rfl
          | some .vNull => rfl
          | some (.vBool b) => rfl
          | some (.vNum n) => rfl
          | some (.vArr xs) => rfl
          | some (.vObj fs) => rfl
          | some (.vStr s) =>
            have hle := hshort s hg
            show Except.ok (some (JsValue.vStr s)) = Except.ok (some (JsValue.vStr
              (if 100 < s.length then maskPlaceholder s.length else s)))
            rw [if_neg (by omega)]
      · have hget' : getSegs (some m) (pathSegments p)
            = .ok (some (.vStr s)) := hget
        rw [hrest, hafter, hget']
        show Except.ok (some (JsValue.vStr (maskPlaceholder s.length)))
          = Except.ok (some (JsValue.vStr
            (if 100 < s.length then maskPlaceholder s.length else s)))
        rw [if_pos hlen]
    · -- a later path: this step happens at a diverging path
      rcases maskStep_cases h1 with ⟨heq, _⟩ | ⟨s, hget, _, hset, _⟩
      · subst heq
        exact ih m1 mF h2 hpwr p hpr
      · have hfr := setSegs_frame (pathSegments p0) m (pathSegments p) hget hset
          (Diverge.symm (hd p hpr))
        rw [ih m1 mF h2 hpwr p hpr, hfr]

/-!
### The identified paths are pairwise divergent
-/

theorem diverge_imagen {i j : Nat} (h : i ≠ j) :
    Diverge (pathSegments (imagenPathStr i)) (pathSegments (imagenPathStr j)) := by
  rw [pathSegments_imagen, pathSegments_imagen]
  exact Or.inr ⟨rfl, Or.inl fun hh => h (jsNumToString_inj hh)⟩

theorem diverge_gemini {i j i' j' : Nat} (h : i ≠ i' ∨ j ≠ j') :
    Diverge (pathSegments (geminiPathStr i j)) (pathSegments (geminiPathStr i' j')) := by
  rw [pathSegments_gemini, pathSegments_gemini]
  rcases h with h | h
  · exact Or.inr ⟨rfl, Or.inl fun hh => h (jsNumToString_inj hh)⟩
  · by_cases hi : i = i'
    · subst hi
      exact Or.inr ⟨rfl, Or.inr ⟨rfl, Or.inr ⟨rfl, Or.inr ⟨rfl,
        Or.inl fun hh => h (jsNumToString_inj hh)⟩⟩⟩⟩
    · exact Or.inr ⟨rfl, Or.inl fun hh => hi (jsNumToString_inj hh)⟩

def PairwiseDiv (ps : List String) : Prop :=
  List.Pairwise (fun a b => Diverge (pathSegments a) (pathSegments b)) ps

theorem pairwise_imagen_range (n : Nat) :
    PairwiseDiv ((List.range n).map imagenPathStr) := by
  rw [PairwiseDiv, List.pairwise_map]
  exact (List.pairwise_lt_range n).imp fun hab => diverge_imagen (Nat.ne_of_lt hab)

theorem findImagenBase64Paths_shape {obj : JsValue} {ps : List String}
    (h : findImagenBase64Paths obj = .ok ps) :
    ps = [] ∨ ∃ n, ps = (List.range n).map imagenPathStr := by
  unfold findImagenBase64Paths at h
  obtain ⟨pf, hpf, hf⟩ := except_bind_ok h
  match pf with
  | some (.vArr xs) => exact Or.inr ⟨xs.length, by simpa using hf.symm⟩
  | none => exact Or.inl (by simpa using hf.symm)
  | some .vNull => exact Or.inl (by simpa using hf.symm)
  | some (.vBool b) => exact Or.inl (by simpa using hf.symm)
  | some (.vNum n) => exact Or.inl (by simpa using hf.symm)
  | some (.vStr s) => exact Or.inl (by simpa using hf.symm)
  | some (.vObj fs) => exact Or.inl (by simpa using hf.symm)

theorem geminiPathsForCandidate_shape {cand : JsValue} {i : Nat} {ps : List String}
    (h : geminiPathsForCandidate cand i = .ok ps) :
    ps = [] ∨ ∃ n, ps = (List.range n).map (geminiPathStr i) := by
  unfold geminiPathsForCandidate at h
  obtain ⟨co, hco, hf⟩ := except_bind_ok h
  match co with
  | none => exact Or.inl (by simpa using hf.symm)
  | some content =>
    have hf' : (if content.truthy = true then
        (do
          let parts? ← jsGetProp content "parts"
          match parts? with
          | some (.vArr parts) =>
              Except.ok ((List.range parts.length).map (geminiPathStr i))
          | _ => Except.ok [])
        else Except.ok ([] : List String)) = .ok ps := hf
    by_cases hct : content.truthy
    · rw [if_pos hct] at hf'
      obtain ⟨po, hpo, hpf⟩ := except_bind_ok hf'
      match po with
      | some (.vArr parts) => exact Or.inr ⟨parts.length, by simpa using hpf.symm⟩
      | none => exact Or.inl (by simpa using hpf.symm)
      | some .vNull => exact Or.inl (by simpa using hpf.symm)
      | some (.vBool b) => exact Or.inl (by simpa using hpf.symm)
      | some (.vNum n) => exact Or.inl (by simpa using hpf.symm)
      | some (.vStr s) => exact Or.inl (by simpa using hpf.symm)
      | some (.vObj fs) => exact Or.inl (by simpa using hpf.symm)
    · rw [if_neg hct] at hf'
      exact Or.inl (by simpa using hf'.symm)

theorem geminiCandPaths_spec : ∀ (cands : List JsValue) (i : Nat) (ps : List String),
    geminiCandPaths i cands = .ok ps →
    (∀ p ∈ ps, ∃ i' j', i ≤ i' ∧ p = geminiPathStr i' j') ∧ PairwiseDiv ps := by
  intro cands
  induction cands with
  | nil =>
    intro i ps h
    have : ps = [] := by simpa [geminiCandPaths] using h.symm
    subst this
    exact ⟨by simp, List.Pairwise.nil⟩
  | cons cand rest ih =>
    intro i ps h
    obtain ⟨here, hhere, hf⟩ := except_bind_ok (by simpa [geminiCandPaths] using h)
    obtain ⟨more, hmore, hff⟩ := except_bind_ok hf
    have hps : ps = here ++ more := by simpa using hff.symm
    subst hps
    obtain ⟨hmem, hpw⟩ := ih (i + 1) more hmore
    have hhmem : ∀ p ∈ here, ∃ j, p = geminiPathStr i j := by
      rcases geminiPathsForCandidate_shape hhere with rfl | ⟨n, rfl⟩
      · simp
      · intro p hp
        obtain ⟨j, _, rfl⟩ := by simpa using hp
        exact ⟨j, rfl⟩
    have hhpw : PairwiseDiv here := by
      rcases geminiPathsForCandidate_shape hhere with rfl | ⟨n, rfl⟩
      · exact List.Pairwise.nil
      · rw [PairwiseDiv, List.pairwise_map]
        exact (List.pairwise_lt_range n).imp
          fun hab => diverge_gemini (Or.inr (Nat.ne_of_lt hab))
    refine ⟨?_, ?_⟩
    · intro p hp
      rcases List.mem_append.mp hp with hp | hp
      · obtain ⟨j, rfl⟩ := hhmem p hp
        exact ⟨i, j, le_rfl, rfl⟩
      · obtain ⟨i', j', hle, rfl⟩ := hmem p hp
        exact ⟨i', j', by omega, rfl⟩
    · rw [PairwiseDiv, List.pairwise_append]
      refine ⟨hhpw, hpw, fun a ha b hb => ?_⟩
      obtain ⟨j, rfl⟩ := hhmem a ha
      obtain ⟨i', j', hle, rfl⟩ := hmem b hb
      exact diverge_gemini (Or.inl (by omega))

theorem responsePaths_pairwise {obj : JsValue} {ps : List String}
    (h : responsePaths obj = .ok ps) :
    PairwiseDiv ps ∧
    ((∀ p ∈ ps, ∃ i, p = imagenPathStr i) ∨
     (∀ p ∈ ps, ∃ i j, p = geminiPathStr i j)) := by
  unfold responsePaths at h
  obtain ⟨pf, hpf, hf⟩ := except_bind_ok h
  by_cases hpt : isTruthyArray pf
  · rw [if_pos hpt] at hf
    rcases findImagenBase64Paths_shape hf with rfl | ⟨n, rfl⟩
    · exact ⟨List.Pairwise.nil, Or.inl (by simp)⟩
    · refine ⟨pairwise_imagen_range n, Or.inl ?_⟩
      intro p hp
      obtain ⟨i, _, rfl⟩ := by simpa using hp
      exact ⟨i, rfl⟩
  · rw [if_neg hpt] at hf
    obtain ⟨cf, hcf, hcff⟩ := except_bind_ok hf
    by_cases hct : isTruthyArray cf
    · rw [if_pos hct] at hcff
      match cf, hct with
      | some (.vArr cands), _ =>
        have hg : geminiCandPaths 0 cands = .ok ps := by
          unfold findGeminiBase64Paths at hcff
          obtain ⟨c2, hc2, hcg⟩ := except_bind_ok hcff
          rw [hcf] at hc2
          cases hc2
          exact hcg
        obtain ⟨hmem, hpw⟩ := geminiCandPaths_spec cands 0 ps hg
        refine ⟨hpw, Or.inr fun p hp => ?_⟩
        obtain ⟨i', j', _, rfl⟩ := hmem p hp
        exact ⟨i', j', rfl⟩
    · rw [if_neg hct] at hcff
      have : ps = [] := by simpa using hcff.symm
      subst this
      exact ⟨List.Pairwise.nil, Or.inl (by simp)⟩

/-- Inversion for a successful `maskBase64Content`. -/
theorem maskBase64Content_ok {obj m : JsValue} (h : maskBase64Content obj = .ok m) :
    (¬((obj.truthy && obj.isObjLike) = true) ∧ m = obj) ∨
    ((obj.truthy && obj.isObjLike) = true ∧
      ∃ ps, responsePaths obj = .ok ps ∧ applyMasks ps obj = .ok m) := by
  unfold maskBase64Content at h
  by_cases hc : (obj.truthy && obj.isObjLike) = true
  · rw [if_pos hc] at h
    obtain ⟨ps, hps, happ⟩ := except_bind_ok h
    exact Or.inr ⟨hc, ps, hps, happ⟩
  · rw [if_neg hc] at h
    exact Or.inl ⟨hc, by simpa using h.symm⟩

theorem responsePaths_notObj {obj : JsValue} (h : ¬((obj.truthy && obj.isObjLike) = true))
    {ps : List String} (hps : responsePaths obj = .ok ps) : ps = [] := by
  cases obj with
  | vArr xs => exact (h rfl).elim
  | vObj fs => exact (h rfl).elim
  | vNull => exact absurd hps (by simp [responsePaths, jsGetProp, Bind.bind, Except.bind])
  | vBool b =>
    have h2 : (Except.ok [] : Except Unit (List String)) = .ok ps := hps
    exact (Except.ok.inj h2).symm
  | vNum n =>
    have h2 : (Except.ok [] : Except Unit (List String)) = .ok ps := hps
    exact (Except.ok.inj h2).symm
  | vStr s =>
    have h2 : (Except.ok [] : Except Unit (List String)) = .ok ps := hps
    exact (Except.ok.inj h2).symm

/-- C2: for every string value at a path the branch recognizes, masking
replaces it exactly when it is longer than 100 characters, and the
replacement is the literal `[BASE64_DATA_MASKED: ~<N> KB]` with
`N = ⌊L/4·3/1024⌋ = ⌊3L/4096⌋` in exact arithmetic. -/
theorem maskBase64Content_threshold :
    ∀ (obj m : JsValue) (ps : List String) (p : String) (s : String),
      maskBase64Content obj = .ok m →
      responsePaths obj = .ok ps →
      p ∈ ps →
      getValueAtPath obj p = .ok (some (.vStr s)) →
      getValueAtPath m p
        = .ok (some (.vStr (if 100 < s.length
            then "[BASE64_DATA_MASKED: ~" ++ jsNumToString (3 * s.length / 4096) ++ " KB]"
            else s))) := by
  intro obj m ps p s hmask hps hp hval
  rcases maskBase64Content_ok hmask with ⟨hc, rfl⟩ | ⟨hc, pp, hpp, happ⟩
  · rw [responsePaths_notObj hc hps] at hp
    simp at hp
  · rw [hpp] at hps
    cases hps
    have hpath := applyMasks_at_path ps obj m happ
      (responsePaths_pairwise hpp).1 p hp
    show getSegs (some m) (pathSegments p) = _
    rw [hpath]
    have hval' : getSegs (some obj) (pathSegments p) = .ok (some (.vStr s)) := hval
    rw [hval']
    rfl

def c2wStr : String := String.mk (List.replicate 150 'A')

def c2wObj : JsValue :=
  .vObj [("predictions", .vArr [.vObj [("bytesBase64Encoded", .vStr c2wStr)]])]

def c2wMasked : JsValue :=
  .vObj [("predictions", .vArr [.vObj
    [("bytesBase64Encoded", .vStr "[BASE64_DATA_MASKED: ~0 KB]")]])]

set_option maxRecDepth 8000 in
/-- Witness for C2 at a concrete 150-character payload. -/
theorem maskBase64Content_threshold_witness :
    maskBase64Content c2wObj = .ok c2wMasked ∧
    responsePaths c2wObj = .ok [imagenPathStr 0] ∧
    imagenPathStr 0 ∈ [imagenPathStr 0] ∧
    getValueAtPath c2wObj (imagenPathStr 0) = .ok (some (.vStr c2wStr)) ∧
    getValueAtPath c2wMasked (imagenPathStr 0)
      = .ok (some (.vStr (if 100 < c2wStr.length
          then "[BASE64_DATA_MASKED: ~" ++ jsNumToString (3 * c2wStr.length / 4096) ++ " KB]"
          else c2wStr))) := by
  refine ⟨by rfl, by rfl, by simp, by rfl, ?_⟩
  exact maskBase64Content_threshold c2wObj c2wMasked [imagenPathStr 0]
    (imagenPathStr 0) c2wStr (by rfl) (by rfl) (by simp) (by rfl)

def c1Str : String := String.mk (List.replicate 101 'B')

/-- A response carrying both an (empty) `predictions` array and a
`candidates` array with a 101-character inline payload.  The `else if` at
src/src/utils.js line 83 means only the Imagen rules run, and they produce no
paths, so the copy comes back unchanged. -/
def c1Obj : JsValue :=
  .vObj [("predictions", .vArr []),
         ("candidates", .vArr [.vObj [("content", .vObj [("parts", .vArr
           [.vObj [("inlineData", .vObj [("data", .vStr c1Str)])]])])]])]

set_option maxRecDepth 8000 in
/-- Counterexample to C1 as stated: with both vendor arrays present the
masked copy equals the input, so the 101-character string at the Gemini
binary-payload path `candidates[0].content.parts[0].inlineData.data` is
returned verbatim — an unmasked string longer than 100 characters at a
vendor-specific binary-payload path. -/
theorem maskBase64Content_both_arrays_counterexample :
    maskBase64Content c1Obj = .ok c1Obj ∧
    getValueAtPath c1Obj (geminiPathStr 0 0) = .ok (some (.vStr c1Str)) ∧
    c1Str.length = 101 := ⟨by rfl, by rfl, by rfl⟩

/-- C1 (amended): on the branch the code actually takes (`predictions`
paths when an array-valued `predictions` field is present, `candidates`
paths only otherwise), every string at an identified path in the returned
copy that is longer than 100 characters is the masking placeholder, and
every path diverging from all identified paths reads the same value in the
copy as in the input. -/
theorem maskBase64Content_invariant :
    ∀ (obj m : JsValue) (ps : List String),
      maskBase64Content obj = .ok m →
      responsePaths obj = .ok ps →
      (∀ p ∈ ps, ∀ s : String,
          getValueAtPath m p = .ok (some (.vStr s)) → 100 < s.length →
          ∃ L, s = maskPlaceholder L) ∧
      (∀ qs : List String, (∀ p ∈ ps, Diverge qs (pathSegments p)) →
          getSegs (some m) qs = getSegs (some obj) qs) := by
  intro obj m ps hmask hps
  rcases maskBase64Content_ok hmask with ⟨hc, rfl⟩ | ⟨hc, pp, hpp, happ⟩
  · rw [responsePaths_notObj hc hps]
    exact ⟨by simp, fun qs _ => rfl⟩
  · rw [hpp] at hps
    cases hps
    refine ⟨fun p hp s hval hlen => ?_, fun qs hqs => applyMasks_frame ps obj m qs happ hqs⟩
    have hpath := applyMasks_at_path ps obj m happ (responsePaths_pairwise hpp).1 p hp
    have hval' : getSegs (some m) (pathSegments p) = .ok (some (.vStr s)) := hval
    rw [hval'] at hpath
    cases hg : getSegs (some obj) (pathSegments p) with
    | error e => rw [hg] at hpath; exact absurd hpath (by simp [maskedView])
    | ok vo =>
      rw [hg] at hpath
      match vo, hpath with
      | none, hpath => exact absurd hpath (by simp [maskedView])
      | some .vNull, hpath => exact absurd hpath (by simp [maskedView])
      | some (.vBool b), hpath => exact absurd hpath (by simp [maskedView])
      | some (.vNum n), hpath => exact absurd hpath (by simp [maskedView])
      | some (.vArr xs), hpath => exact absurd hpath (by simp [maskedView])
      | some (.vObj fs), hpath => exact absurd hpath (by simp [maskedView])
      | some (.vStr s0), hpath =>
        have hs : s = if 100 < s0.length then maskPlaceholder s0.length else s0 := by
          have h2 : (Except.ok (some (JsValue.vStr s)) : Except Unit (Option JsValue))
              = .ok (some (.vStr (if 100 < s0.length then maskPlaceholder s0.length
                  else s0))) := hpath
          simpa using h2
        by_cases h0 : 100 < s0.length
        · rw [if_pos h0] at hs
          exact ⟨s0.length, hs⟩
        · rw [if_neg h0] at hs
          subst hs
          omega

def c1wStr : String := String.mk (List.replicate 120 'C')

def c1wObj : JsValue :=
  .vObj [("predictions", .vArr [.vObj [("bytesBase64Encoded", .vStr c1wStr)]])]

def c1wMasked : JsValue :=
  .vObj [("predictions", .vArr [.vObj
    [("bytesBase64Encoded", .vStr "[BASE64_DATA_MASKED: ~0 KB]")]])]

set_option maxRecDepth 8000 in
/-- Witness for the amended C1 on a concrete masked response. -/
theorem maskBase64Content_invariant_witness :
    maskBase64Content c1wObj = .ok c1wMasked ∧
    responsePaths c1wObj = .ok [imagenPathStr 0] ∧
    ((∀ p ∈ [imagenPathStr 0], ∀ s : String,
        getValueAtPath c1wMasked p = .ok (some (.vStr s)) → 100 < s.length →
        ∃ L, s = maskPlaceholder L) ∧
     (∀ qs : List String, (∀ p ∈ [imagenPathStr 0], Diverge qs (pathSegments p)) →
        getSegs (some c1wMasked) qs = getSegs (some c1wObj) qs)) := by
  refine ⟨by rfl, by rfl, ?_⟩
  exact maskBase64Content_invariant c1wObj c1wMasked [imagenPathStr 0] (by rfl) (by rfl)

/-!
### When maskBase64Content does not throw
-/

def JsValue.isNull : JsValue → Bool
  | .vNull => true
  | _ => false

theorem isNull_false_iff {v : JsValue} : v.isNull = false ↔ v ≠ .vNull := by
  cases v <;> simp [JsValue.isNull]

theorem truthy_ne_null {v : JsValue} (h : v.truthy = true) : v ≠ .vNull := by
  rintro rfl
  exact absurd h (by simp [JsValue.truthy])

/-- A part is traversal-safe when it is not `null` and its `inlineData`
field (when it is an object carrying one) is not `null`. -/
def partInlineOk (p : JsValue) : Bool :=
  match p with
  | .vNull => false
  | .vObj fs =>
      match lookupField fs "inlineData" with
      | some .vNull => false
      | _ => true
  | _ => true

theorem partInlineOk_ne_null {p : JsValue} (h : partInlineOk p = true) :
    p ≠ .vNull := by
  rintro rfl
  exact absurd h (by simp [partInlineOk])

theorem partInlineOk_obj {fs : List (String × JsValue)}
    (h : partInlineOk (.vObj fs) = true) :
    lookupField fs "inlineData" ≠ some .vNull := by
  intro hh
  have h2 : (match lookupField fs "inlineData" with
      | some JsValue.vNull => false
      | _ => true) = true := h
  rw [hh] at h2
  exact absurd h2 (by simp)

/-- A candidate is traversal-safe when it is not `null` and, when it has a
truthy `content` whose `parts` is an array, all parts are safe. -/
def candidateOk (cand : JsValue) : Bool :=
  !cand.isNull &&
    (match propOf cand "content" with
     | some content =>
         !content.truthy ||
           (match propOf content "parts" with
            | some (.vArr parts) => parts.all partInlineOk
            | _ => true)
     | none => true)

theorem candidateOk_ne_null {cand : JsValue} (h : candidateOk cand = true) :
    cand ≠ .vNull := by
  rintro rfl
  exact absurd h (by simp [candidateOk, JsValue.isNull])

theorem candidateOk_parts {cand content : JsValue} {parts : List JsValue}
    (h : candidateOk cand = true)
    (hco : propOf cand "content" = some content)
    (hct : content.truthy = true)
    (hpa : propOf content "parts" = some (.vArr parts)) :
    ∀ part ∈ parts, partInlineOk part = true := by
  unfold candidateOk at h
  rw [hco] at h
  have h2 : (!cand.isNull && (!content.truthy ||
      (match propOf content "parts" with
       | some (.vArr qs) => qs.all partInlineOk
       | _ => true))) = true := h
  rw [hpa] at h2
  have h3 : (!cand.isNull && (!content.truthy || parts.all partInlineOk)) = true := h2
  rw [hct] at h3
  simp only [Bool.not_true, Bool.false_or, Bool.and_eq_true] at h3
  exact fun part hp => (List.all_eq_true.mp h3.2) part hp

/-- Structural conditions under which `maskBase64Content` cannot throw: on
the Imagen branch no prediction is `null`; on the Gemini branch every
candidate is traversal-safe. -/
def maskSafe (obj : JsValue) : Bool :=
  match propOf obj "predictions" with
  | some (.vArr xs) => xs.all fun e => !e.isNull
  | _ =>
      match propOf obj "candidates" with
      | some (.vArr cands) => cands.all candidateOk
      | _ => true

theorem jsNumToString_ne_length (i : Nat) : jsNumToString i ≠ "length" := by
  intro h
  have : natToChars i = "length".data := congrArg String.data h
  have hl : ('l' : Char) ∈ natToChars i := by rw [this]; simp
  have := natToChars_digits i 'l' hl
  exact absurd this (by decide)

theorem propOf_arr_jsNum (xs : List JsValue) (i : Nat) :
    propOf (.vArr xs) (jsNumToString i) = xs.get? i := by
  simp only [propOf, if_neg (jsNumToString_ne_length i), canonicalIndex_jsNum]
  rfl

theorem imagen_get_ok {obj : JsValue} {xs : List JsValue}
    (hobj : obj ≠ .vNull)
    (hpred : propOf obj "predictions" = some (.vArr xs))
    (hnn : ∀ e ∈ xs, e ≠ .vNull) (i : Nat) :
    ∃ vo, getSegs (some obj) (pathSegments (imagenPathStr i)) = .ok vo := by
  rw [pathSegments_imagen, getSegs_cons hobj, hpred,
    getSegs_cons (by simp), propOf_arr_jsNum]
  cases hg : xs.get? i with
  | none => exact ⟨none, by rw [getSegs_none _ (by simp)]⟩
  | some e =>
    have he : e ≠ .vNull := hnn e (List.get?_mem hg)
    rw [getSegs_cons he, getSegs_nil]
    exact ⟨propOf e "bytesBase64Encoded", rfl⟩

theorem geminiPathsForCandidate_inv {cand : JsValue} {i : Nat} {ps : List String}
    (h : geminiPathsForCandidate cand i = .ok ps) :
    ps = [] ∨ ∃ content parts, propOf cand "content" = some content ∧
      content.truthy = true ∧ propOf content "parts" = some (.vArr parts) ∧
      ps = (List.range parts.length).map (geminiPathStr i) := by
  unfold geminiPathsForCandidate at h
  obtain ⟨co, hco, hf⟩ := except_bind_ok h
  have hcnn : cand ≠ .vNull := by
    rintro rfl
    exact absurd hco (by simp [jsGetProp])
  rw [jsGetProp_eq hcnn] at hco
  match co, hco with
  | none, hco => exact Or.inl (by simpa using hf.symm)
  | some content, hco =>
    have hf' : (if content.truthy = true then
        (do
          let parts? ← jsGetProp content "parts"
          match parts? with
          | some (.vArr parts) =>
              Except.ok ((List.range parts.length).map (geminiPathStr i))
          | _ => Except.ok [])
        else Except.ok ([] : List String)) = .ok ps := hf
    by_cases hct : content.truthy
    · rw [if_pos hct] at hf'
      obtain ⟨po, hpo, hpf⟩ := except_bind_ok hf'
      rw [jsGetProp_eq (truthy_ne_null hct)] at hpo
      match po, hpo with
      | some (.vArr parts), hpo =>
        exact Or.inr ⟨content, parts, by simpa using hco, hct, by simpa using hpo,
          by simpa using hpf.symm⟩
      | none, hpo => exact Or.inl (by simpa using hpf.symm)
      | some .vNull, hpo => exact Or.inl (by simpa using hpf.symm)
      | some (.vBool b), hpo => exact Or.inl (by simpa using hpf.symm)
      | some (.vNum n), hpo => exact Or.inl (by simpa using hpf.symm)
      | some (.vStr s), hpo => exact Or.inl (by simpa using hpf.symm)
      | some (.vObj fs), hpo => exact Or.inl (by simpa using hpf.symm)
    · rw [if_neg hct] at hf'
      exact Or.inl (by simpa using hf'.symm)

theorem geminiPathsForCandidate_ok {cand : JsValue} (hc : cand ≠ .vNull) (i : Nat) :
    ∃ ps, geminiPathsForCandidate cand i = .ok ps := by
  unfold geminiPathsForCandidate
  rw [jsGetProp_eq hc]
  cases hco : propOf cand "content" with
  | none => exact ⟨[], rfl⟩
  | some content =>
    show ∃ ps, (if content.truthy = true then
        (do
          let parts? ← jsGetProp content "parts"
          match parts? with
          | some (.vArr parts) =>
              Except.ok ((List.range parts.length).map (geminiPathStr i))
          | _ => Except.ok [])
        else Except.ok ([] : List String)) = .ok ps
    by_cases hct : content.truthy
    · rw [if_pos hct, jsGetProp_eq (truthy_ne_null hct)]
      cases hpa : propOf content "parts" with
      | none => exact ⟨[], rfl⟩
      | some pv =>
        match pv with
        | .vArr parts => exact ⟨_, rfl⟩
        | .vNull => exact ⟨[], rfl⟩
        | .vBool b => exact ⟨[], rfl⟩
        | .vNum n => exact ⟨[], rfl⟩
        | .vStr s => exact ⟨[], rfl⟩
        | .vObj fs => exact ⟨[], rfl⟩
    · rw [if_neg hct]
      exact ⟨[], rfl⟩

theorem geminiCandPaths_ok : ∀ (rest : List JsValue) (i : Nat),
    (∀ e ∈ rest, candidateOk e = true) →
    ∃ ps, geminiCandPaths i rest = .ok ps := by
  intro rest
  induction rest with
  | nil => intro i _; exact ⟨[], rfl⟩
  | cons cand rest2 ih =>
    intro i hok
    obtain ⟨here, hhere⟩ := geminiPathsForCandidate_ok
      (candidateOk_ne_null (hok cand (by simp))) i
    obtain ⟨more, hmore⟩ := ih (i + 1) fun e he => hok e (by simp [he])
    refine ⟨here ++ more, ?_⟩
    show (geminiPathsForCandidate cand i >>= fun here2 =>
      geminiCandPaths (i + 1) rest2 >>= fun more2 => Except.ok (here2 ++ more2)) = _
    rw [hhere, hmore]
    rfl

theorem gemini_paths_get_ok {obj : JsValue} {cands : List JsValue}
    (hobj : obj ≠ .vNull)
    (hcand : propOf obj "candidates" = some (.vArr cands))
    (hok : ∀ e ∈ cands, candidateOk e = true) :
    ∀ (rest : List JsValue) (i0 : Nat) (ps : List String),
      geminiCandPaths i0 rest = .ok ps →
      (∀ k, rest.get? k = cands.get? (i0 + k)) →
      ∀ p ∈ ps, ∃ vo, getSegs (some obj) (pathSegments p) = .ok vo := by
  intro rest
  induction rest with
  | nil =>
    intro i0 ps h _ p hp
    have : ps = [] := by simpa [geminiCandPaths] using h.symm
    subst this
    simp at hp
  | cons cand rest2 ih =>
    intro i0 ps h hidx p hp
    obtain ⟨here, hhere, hf⟩ := except_bind_ok (by simpa [geminiCandPaths] using h)
    obtain ⟨more, hmore, hff⟩ := except_bind_ok hf
    have hps : ps = here ++ more := by simpa using hff.symm
    subst hps
    have hcmem : cands.get? i0 = some cand := by
      simpa using (hidx 0).symm
    have hcok : candidateOk cand = true := hok cand (List.get?_mem hcmem)
    rcases List.mem_append.mp hp with hp | hp
    · rcases geminiPathsForCandidate_inv hhere with rfl | ⟨content, parts, hco, hct, hpa, rfl⟩
      · simp at hp
      · obtain ⟨j, hjr, rfl⟩ := List.mem_map.mp hp
        have hj : j < parts.length := List.mem_range.mp hjr
        rw [pathSegments_gemini, getSegs_cons hobj, hcand,
          getSegs_cons (by simp), propOf_arr_jsNum, hcmem]
        have hcnn : cand ≠ .vNull := candidateOk_ne_null hcok
        rw [getSegs_cons hcnn, hco,
          getSegs_cons (truthy_ne_null hct), hpa,
          getSegs_cons (by simp), propOf_arr_jsNum,
          List.get?_eq_get hj]
        have hpok : partInlineOk (parts.get ⟨j, hj⟩) = true :=
          candidateOk_parts hcok hco hct hpa _ (parts.get_mem _ _)
        have hpnn : parts.get ⟨j, hj⟩ ≠ .vNull := partInlineOk_ne_null hpok
        rw [getSegs_cons hpnn]
        cases hpi : propOf (parts.get ⟨j, hj⟩) "inlineData" with
        | none => exact ⟨none, by rw [getSegs_none _ (by simp)]⟩
        | some w =>
          have hwnn : w ≠ .vNull := by
            rintro rfl
            cases hpart : parts.get ⟨j, hj⟩ with
            | vNull => exact hpnn hpart
            | vObj fs =>
              rw [hpart] at hpi
              rw [hpart] at hpok
              exact partInlineOk_obj hpok (by simpa [propOf] using hpi)
            | vArr xs =>
              rw [hpart] at hpi
              exact absurd hpi (by simp [propOf, show canonicalIndex "inlineData" = none from rfl])
            | vStr s =>
              rw [hpart] at hpi
              exact absurd hpi (by simp [propOf, show canonicalIndex "inlineData" = none from rfl])
            | vNum n =>
              rw [hpart] at hpi
              exact absurd hpi (by simp [propOf])
            | vBool b =>
              rw [hpart] at hpi
              exact absurd hpi (by simp [propOf])
          rw [getSegs_cons hwnn, getSegs_nil]
          exact ⟨propOf w "data", rfl⟩
    · refine ih (i0 + 1) more hmore (fun k => ?_) p hp
      have hk := hidx (k + 1)
      rw [show i0 + (k + 1) = i0 + 1 + k by omega] at hk
      simpa using hk

theorem candBranchSafe {obj : JsValue} (hobj : obj ≠ .vNull)
    (hsafe : (match propOf obj "candidates" with
      | some (.vArr cands) => cands.all candidateOk
      | _ => true) = true)
    {pv : Option JsValue} (hpf : propOf obj "predictions" = pv)
    (hnotarr : isTruthyArray pv = false) :
    ∃ ps, responsePaths obj = .ok ps ∧ PairwiseDiv ps ∧
      ∀ p ∈ ps, ∃ vo, getSegs (some obj) (pathSegments p) = .ok vo := by
  unfold responsePaths
  rw [jsGetProp_eq hobj, hpf]
  show ∃ ps, (if isTruthyArray pv = true then findImagenBase64Paths obj
      else (do
        let candField ← jsGetProp obj "candidates"
        if isTruthyArray candField = true then findGeminiBase64Paths obj
        else Except.ok [])) = .ok ps ∧ PairwiseDiv ps ∧
      ∀ p ∈ ps, ∃ vo, getSegs (some obj) (pathSegments p) = .ok vo
  rw [if_neg (by rw [hnotarr]; simp), jsGetProp_eq hobj]
  cases hcf : propOf obj "candidates" with
  | some cv =>
    match cv, hcf with
    | .vArr cands, hcf =>
      rw [hcf] at hsafe
      have hall : cands.all candidateOk = true := hsafe
      have hok : ∀ e ∈ cands, candidateOk e = true := fun e he =>
        (List.all_eq_true.mp hall) e he
      obtain ⟨ps, hps⟩ := geminiCandPaths_ok cands 0 hok
      refine ⟨ps, ?_, (geminiCandPaths_spec cands 0 ps hps).2, ?_⟩
      · show (if isTruthyArray (some (.vArr cands)) = true
            then findGeminiBase64Paths obj else Except.ok []) = .ok ps
        rw [if_pos (show isTruthyArray (some (.vArr cands)) = true from rfl)]
        unfold findGeminiBase64Paths
        rw [jsGetProp_eq hobj, hcf]
        exact hps
      · exact gemini_paths_get_ok hobj hcf hok cands 0 ps hps (fun k => by simp)
    | .vNull, hcf => exact ⟨[], rfl, List.Pairwise.nil, by simp⟩
    | .vBool b, hcf => exact ⟨[], rfl, List.Pairwise.nil, by simp⟩
    | .vNum n, hcf => exact ⟨[], rfl, List.Pairwise.nil, by simp⟩
    | .vStr s, hcf => exact ⟨[], rfl, List.Pairwise.nil, by simp⟩
    | .vObj fs, hcf => exact ⟨[], rfl, List.Pairwise.nil, by simp⟩
  | none => exact ⟨[], rfl, List.Pairwise.nil, by simp⟩

theorem responsePaths_ok_of_safe {obj : JsValue} (hobj : obj ≠ .vNull)
    (hsafe : maskSafe obj = true) :
    ∃ ps, responsePaths obj = .ok ps ∧ PairwiseDiv ps ∧
      ∀ p ∈ ps, ∃ vo, getSegs (some obj) (pathSegments p) = .ok vo := by
  unfold maskSafe at hsafe
  cases hpf : propOf obj "predictions" with
  | some pv =>
    match pv, hpf with
    | .vArr xs, hpf =>
      rw [hpf] at hsafe
      have hall : (xs.all fun e => !(JsValue.isNull e)) = true := hsafe
      have hnn : ∀ e ∈ xs, e ≠ .vNull := by
        intro e he
        have := (List.all_eq_true.mp hall) e he
        simpa [isNull_false_iff] using this
      refine ⟨(List.range xs.length).map imagenPathStr, ?_, pairwise_imagen_range _, ?_⟩
      · unfold responsePaths
        rw [jsGetProp_eq hobj, hpf]
        show (if isTruthyArray (some (.vArr xs)) = true then findImagenBase64Paths obj
            else (do
              let candField ← jsGetProp obj "candidates"
              if isTruthyArray candField = true then findGeminiBase64Paths obj
              else Except.ok [])) = .ok ((List.range xs.length).map imagenPathStr)
        rw [if_pos (show isTruthyArray (some (.vArr xs)) = true from rfl)]
        unfold findImagenBase64Paths
        rw [jsGetProp_eq hobj, hpf]
        rfl
      · intro p hp
        obtain ⟨i, _, rfl⟩ := List.mem_map.mp hp
        exact imagen_get_ok hobj hpf hnn i
    | .vNull, hpf =>
      rw [hpf] at hsafe
      exact candBranchSafe hobj hsafe hpf rfl
    | .vBool b, hpf =>
      rw [hpf] at hsafe
      exact candBranchSafe hobj hsafe hpf rfl
    | .vNum n, hpf =>
      rw [hpf] at hsafe
      exact candBranchSafe hobj hsafe hpf rfl
    | .vStr s, hpf =>
      rw [hpf] at hsafe
      exact candBranchSafe hobj hsafe hpf rfl
    | .vObj fs, hpf =>
      rw [hpf] at hsafe
      exact candBranchSafe hobj hsafe hpf rfl
  | none =>
    rw [hpf] at hsafe
    exact candBranchSafe hobj hsafe hpf rfl

theorem applyMasks_ok : ∀ (paths : List String) (m : JsValue),
    PairwiseDiv paths →
    (∀ p ∈ paths, ∃ vo, getSegs (some m) (pathSegments p) = .ok vo) →
    ∃ mF, applyMasks paths m = .ok mF := by
  intro paths
  induction paths with
  | nil => intro m _ _; exact ⟨m, rfl⟩
  | cons p rest ih =>
    intro m hpw hsafe
    rw [PairwiseDiv, List.pairwise_cons] at hpw
    obtain ⟨hd, hpwr⟩ := hpw
    obtain ⟨vo, hvo⟩ := hsafe p (by simp)
    obtain ⟨m1, hstep, hpres⟩ : ∃ m1, maskStep m p = .ok m1 ∧
        ∀ q ∈ rest, getSegs (some m1) (pathSegments q)
          = getSegs (some m) (pathSegments q) := by
      have hvo' : getValueAtPath m p = .ok vo := hvo
      match vo, hvo with
      | some (.vStr s), hvo =>
        by_cases hlen : 100 < s.length
        · obtain ⟨v', hset, _⟩ := setSegs_long (pathSegments p) m
            (.vStr (maskPlaceholder s.length)) s (pathSegments_ne_nil p) hvo hlen
          refine ⟨v', ?_, fun q hq =>
            setSegs_frame (pathSegments p) m (pathSegments q) hvo hset
              (Diverge.symm (hd q hq))⟩
          unfold maskStep
          rw [hvo']
          show (if 100 < s.length
              then setValueAtPath m p (.vStr (maskPlaceholder s.length))
              else Except.ok m) = .ok v'
          rw [if_pos hlen]
          unfold setValueAtPath
          rw [hset]
        · refine ⟨m, ?_, fun q _ => rfl⟩
          unfold maskStep
          rw [hvo']
          show (if 100 < s.length
              then setValueAtPath m p (.vStr (maskPlaceholder s.length))
              else Except.ok m) = .ok m
          rw [if_neg hlen]
      | none, hvo => exact ⟨m, by unfold maskStep; rw [hvo']; rfl, fun q _ => rfl⟩
      | some .vNull, hvo => exact ⟨m, by unfold maskStep; rw [hvo']; rfl, fun q _ => rfl⟩
      | some (.vBool b), hvo =>
        exact ⟨m, by unfold maskStep; rw [hvo']; rfl, fun q _ => rfl⟩
      | some (.vNum n), hvo =>
        exact ⟨m, by unfold maskStep; rw [hvo']; rfl, fun q _ => rfl⟩
      | some (.vArr xs), hvo =>
        exact ⟨m, by unfold maskStep; rw [hvo']; rfl, fun q _ => rfl⟩
      | some (.vObj fs), hvo =>
        exact ⟨m, by unfold maskStep; rw [hvo']; rfl, fun q _ => rfl⟩
    obtain ⟨mF, hmf⟩ := ih m1 hpwr fun q hq => by
      rw [hpres q hq]; exact hsafe q (by simp [hq])
    refine ⟨mF, ?_⟩
    show (maskStep m p >>= fun m2 => applyMasks rest m2) = .ok mF
    rw [hstep]
    exact hmf

def c7Imagen : JsValue := .vObj [("predictions", .vArr [.vNull])]
def c7Gemini : JsValue := .vObj [("candidates", .vArr [.vNull])]

/-- Counterexample to C7 as stated: a `null` element inside `predictions`
(or inside `candidates`) makes `maskBase64Content` throw a TypeError —
`getValueAtPath` reads `bytesBase64Encoded` off `null`, and
`findGeminiBase64Paths` reads `content` off `null`. -/
theorem maskBase64Content_throws_counterexample :
    maskBase64Content c7Imagen = .error () ∧
    maskBase64Content c7Gemini = .error () := ⟨rfl, rfl⟩

/-- C7 (amended): `maskBase64Content` returns (without throwing) on every
falsy or non-object input, which comes back unchanged, and on every object
input whose traversed positions are free of `null` in the sense of
`maskSafe`: no `null` prediction on the Imagen branch, and on the Gemini
branch no `null` candidate, no `null` element of a traversed `parts` array,
and no `null` `inlineData` field. -/
theorem maskBase64Content_no_throw :
    (∀ v : JsValue, ¬((v.truthy && v.isObjLike) = true) → maskBase64Content v = .ok v) ∧
    (∀ obj : JsValue, maskSafe obj = true → ∃ m, maskBase64Content obj = .ok m) := by
  constructor
  · intro v hv
    unfold maskBase64Content
    rw [if_neg hv]
  · intro obj hsafe
    by_cases hc : (obj.truthy && obj.isObjLike) = true
    · have hobj : obj ≠ .vNull := by
        rintro rfl
        simp [JsValue.truthy] at hc
      obtain ⟨ps, hps, hpw, hget⟩ := responsePaths_ok_of_safe hobj hsafe
      obtain ⟨mF, hmf⟩ := applyMasks_ok ps obj hpw hget
      refine ⟨mF, ?_⟩
      unfold maskBase64Content
      rw [if_pos hc]
      show (responsePaths obj >>= fun ps2 => applyMasks ps2 obj) = .ok mF
      rw [hps]
      exact hmf
    · exact ⟨obj, by unfold maskBase64Content; rw [if_neg hc]⟩

def c7wObj : JsValue :=
  .vObj [("candidates", .vArr [.vObj [("content", .vObj [("parts", .vArr
    [.vObj [("text", .vStr "hello")]])])]])]

/-- Witness for the amended C7: a falsy input passes through, and a
null-free Gemini-shaped object is masked without an exception. -/
theorem maskBase64Content_no_throw_witness :
    maskBase64Content (.vNum 0) = .ok (.vNum 0) ∧
    maskSafe c7wObj = true ∧
    ∃ m, maskBase64Content c7wObj = .ok m := by
  refine ⟨?_, by rfl, ?_⟩
  · exact maskBase64Content_no_throw.1 (.vNum 0) (by simp [JsValue.truthy, JsValue.isObjLike])
  · exact maskBase64Content_no_throw.2 c7wObj (by rfl)

/-!
### The path accessors on missing intermediate segments
-/

def c8Root : JsValue := .vObj [("a", .vNull)]

/-- Counterexample to C8 as stated: in `{a: null}` the intermediate segment
`b` of the path `a.b.c` is missing (`null` carries no fields), yet both
`getValueAtPath` and `setValueAtPath` throw a TypeError when they read `b`
off `null`, instead of returning `undefined` / no-op. -/
theorem path_accessor_counterexample :
    getValueAtPath c8Root "a.b.c" = .error () ∧
    setValueAtPath c8Root "a.b.c" (.vNum 5) = .error () := ⟨rfl, rfl⟩

theorem getSegs_take_append :
    ∀ (l1 l2 : List String) (cur : Option JsValue),
      getSegs cur (l1 ++ l2)
        = match getSegs cur l1 with
          | .error e => .error e
          | .ok cur2 => getSegs cur2 l2 := by
  intro l1
  induction l1 with
  | nil => intro l2 cur; rw [List.nil_append]; cases cur <;> rfl
  | cons s rest ih =>
    intro l2 cur
    match cur with
    | none =>
      show (Except.ok none : Except Unit (Option JsValue)) = getSegs none l2
      cases l2 <;> rfl
    | some v2 =>
      match v2 with
      | .vNull => rfl
      | .vBool b =>
        rw [List.cons_append, getSegs_cons (by simp), getSegs_cons (by simp), ih]
      | .vNum n =>
        rw [List.cons_append, getSegs_cons (by simp), getSegs_cons (by simp), ih]
      | .vStr s2 =>
        rw [List.cons_append, getSegs_cons (by simp), getSegs_cons (by simp), ih]
      | .vArr xs =>
        rw [List.cons_append, getSegs_cons (by simp), getSegs_cons (by simp), ih]
      | .vObj fs =>
        rw [List.cons_append, getSegs_cons (by simp), getSegs_cons (by simp), ih]

/-- If the traversal of the first `k+1` segments lands on `undefined`
(with `k+1` strictly before the last segment), the full get returns
`undefined` and the full set is a silent no-op. -/
theorem segs_missing_intermediate :
    ∀ (segs : List String) (v x : JsValue) (k : Nat),
      k + 1 < segs.length →
      getSegs (some v) (segs.take (k + 1)) = .ok none →
      getSegs (some v) segs = .ok none ∧ setSegs v segs x = .ok none := by
  intro segs v x k
  induction k generalizing segs v with
  | zero =>
    intro hlen htake
    match segs, hlen with
    | s :: s2 :: rest, _ =>
      have hv : v ≠ .vNull := by
        rintro rfl
        rw [show (s :: s2 :: rest).take 1 = [s] from rfl, getSegs_cons_null] at htake
        exact absurd htake (by simp)
      have hnone : propOf v s = none := by
        rw [show (s :: s2 :: rest).take 1 = [s] from rfl, getSegs_cons hv,
          getSegs_nil] at htake
        simpa using htake
      constructor
      · rw [getSegs_cons hv, hnone, getSegs_none _ (by simp)]
      · exact setSegs_cons_propNone hv hnone s2 rest x
  | succ k ih =>
    intro hlen htake
    match segs, hlen with
    | s :: s2 :: rest, _ =>
      have hv : v ≠ .vNull := by
        rintro rfl
        rw [show (s :: s2 :: rest).take (k + 2) = s :: (s2 :: rest).take (k + 1)
          from rfl, getSegs_cons_null] at htake
        exact absurd htake (by simp)
      rw [show (s :: s2 :: rest).take (k + 2) = s :: (s2 :: rest).take (k + 1)
        from rfl, getSegs_cons hv] at htake
      cases hp : propOf v s with
      | none =>
        constructor
        · rw [getSegs_cons hv, hp, getSegs_none _ (by simp)]
        · exact setSegs_cons_propNone hv hp s2 rest x
      | some c =>
        rw [hp] at htake
        have hlen2 : k + 1 < (s2 :: rest).length := by
          have : (s :: s2 :: rest).length = (s2 :: rest).length + 1 := rfl
          omega
        obtain ⟨hget2, hset2⟩ := ih (s2 :: rest) c hlen2 htake
        constructor
        · rw [getSegs_cons hv, hp]
          exact hget2
        · rw [setSegs_cons_propSome hv hp s2 rest x, hset2]
          rfl

/-- C8 (amended): when the traversal reaches `undefined` at an intermediate
segment without first reading a property of `null`, `getValueAtPath`
returns `undefined` without throwing and `setValueAtPath` is a silent
no-op that leaves the root unchanged (an intermediate segment that
resolves to `null` instead throws, as the counterexample shows). -/
theorem path_accessor_missing_segment :
    ∀ (root x : JsValue) (path : String) (k : Nat),
      k + 1 < (pathSegments path).length →
      getSegs (some root) ((pathSegments path).take (k + 1)) = .ok none →
      getValueAtPath root path = .ok none ∧ setValueAtPath root path x = .ok root := by
  intro root x path k hlen htake
  obtain ⟨hget, hset⟩ := segs_missing_intermediate (pathSegments path) root x k hlen htake
  refine ⟨hget, ?_⟩
  unfold setValueAtPath
  rw [hset]

def c8wRoot : JsValue := .vObj [("a", .vNum 1)]

/-- Witness for the amended C8: in `{a: 1}` the path `a.b.c` has its
intermediate segment `b` resolve to `undefined`; get yields `undefined`
and set leaves the root untouched. -/
theorem path_accessor_missing_segment_witness :
    1 + 1 < (pathSegments "a.b.c").length ∧
    getSegs (some c8wRoot) ((pathSegments "a.b.c").take 2) = .ok none ∧
    (getValueAtPath c8wRoot "a.b.c" = .ok none ∧
     setValueAtPath c8wRoot "a.b.c" (.vNum 5) = .ok c8wRoot) := by
  refine ⟨by decide, by rfl, ?_⟩
  exact path_accessor_missing_segment c8wRoot (.vNum 5) "a.b.c" 1 (by decide) (by rfl)


/-!
### Gemini normalizer claims
-/

theorem string_isEmpty_false {s : String} (h : s ≠ "") : s.isEmpty = false := by
  rw [Bool.eq_false_iff]
  intro he
  exact h ((String.isEmpty_iff s).mp he)

theorem processGeminiResponse_cons (c0 : GCandidate) (rest : List GCandidate)
    (rid odir jdir : String) :
    processGeminiResponse { candidates := some (c0 :: rest) } rid odir jdir
      = (if c0.finishReason = some "IMAGE_SAFETY" then
          { success := false, error := some "由于安全问题，图像生成被阻止",
            safetyBlock := some true,
            responseFile := some (pathJoin jdir (rid ++ "_response.json")) }
        else
          match c0.content with
          | some ct =>
              match ct.parts with
              | some parts =>
                  { success := true, outputDir := some odir, jsonDir := some jdir,
                    images := geminiExtract rid odir 0 parts,
                    responseFile := some (pathJoin jdir (rid ++ "_response.json")) }
              | none =>
                  { success := true, outputDir := some odir, jsonDir := some jdir,
                    images := [],
                    responseFile := some (pathJoin jdir (rid ++ "_response.json")) }
          | none =>
              { success := true, outputDir := some odir, jsonDir := some jdir,
                images := [],
                responseFile := some (pathJoin jdir (rid ++ "_response.json")) }) := rfl

/-- C5: a first candidate finishing with `IMAGE_SAFETY` yields a safety
block with no extracted images, whatever the later candidates hold. -/
theorem gemini_safety_block :
    ∀ (resp : GeminiResponse) (rid odir jdir : String)
      (c0 : GCandidate) (rest : List GCandidate),
      resp.candidates = some (c0 :: rest) →
      c0.finishReason = some "IMAGE_SAFETY" →
      (processGeminiResponse resp rid odir jdir).success = false ∧
      (processGeminiResponse resp rid odir jdir).safetyBlock = some true ∧
      (processGeminiResponse resp rid odir jdir).images = [] := by
  intro resp rid odir jdir c0 rest hc hfr
  obtain ⟨co⟩ := resp
  have hco : co = some (c0 :: rest) := hc
  subst hco
  rw [processGeminiResponse_cons, if_pos hfr]
  exact ⟨rfl, rfl, rfl⟩

def c5wInline : GPart :=
  { inlineData := some { mimeType := some "image/png", data := some "AAAA" } }

def c5wResp : GeminiResponse :=
  { candidates := some
      [{ finishReason := some "IMAGE_SAFETY",
         content := some { parts := some [c5wInline] } },
       { content := some { parts := some [c5wInline] } }] }

/-- Witness for C5: the first candidate is safety-blocked even though both
candidates carry valid inline image parts. -/
theorem gemini_safety_block_witness :
    c5wResp.candidates = some
      [{ finishReason := some "IMAGE_SAFETY",
         content := some { parts := some [c5wInline] } },
       { content := some { parts := some [c5wInline] } }] ∧
    ((processGeminiResponse c5wResp "req" "out" "json").success = false ∧
     (processGeminiResponse c5wResp "req" "out" "json").safetyBlock = some true ∧
     (processGeminiResponse c5wResp "req" "out" "json").images = []) := by
  refine ⟨rfl, ?_⟩
  exact gemini_safety_block c5wResp "req" "out" "json" _ _ rfl rfl

/-- The extraction loop collects exactly the matching parts, in order, with
a counter that advances only on matches: starting at `count`, the `k`-th
matching part (0-based) is written with 1-based counter `count + 1 + k` and
the extension drawn from its own MIME type. -/
theorem geminiExtract_filter :
    ∀ (parts : List GPart) (rid odir : String) (count : Nat),
      geminiExtract rid odir count parts
        = ((parts.filter fun p => (geminiPartData p).isSome).enumFrom (count + 1)).map
            fun e => pathJoin odir (rid ++ "_generated_" ++ jsNumToString e.1 ++ "."
              ++ geminiExt (e.2.inlineData.bind GInlineData.mimeType)) := by
  intro parts
  induction parts with
  | nil => intro rid odir count; rfl
  | cons p rest ih =>
    intro rid odir count
    cases hpd : geminiPartData p with
    | some d =>
      have hfil : (p :: rest).filter (fun q => (geminiPartData q).isSome)
          = p :: rest.filter fun q => (geminiPartData q).isSome :=
        List.filter_cons_of_pos (by simp [hpd])
      simp only [geminiExtract, hpd, hfil, List.enumFrom_cons, List.map_cons, ih]
    | none =>
      have hfil : (p :: rest).filter (fun q => (geminiPartData q).isSome)
          = rest.filter fun q => (geminiPartData q).isSome :=
        List.filter_cons_of_neg (by simp [hpd])
      simp only [geminiExtract, hpd]
      rw [hfil, ih]

def c6Parts : List GPart :=
  [{ inlineData := some { mimeType := some "image/png", data := some "AAAA" } },
   { inlineData := some { mimeType := some "image/jpeg", data := some "BBBB" } },
   { text := some "a caption" }]

def c6Resp : GeminiResponse :=
  { candidates := some
      [{ finishReason := some "IMAGE_SAFETY",
         content := some { parts := some c6Parts } }] }

/-- Counterexample to C6 as stated: `candidates[0].content.parts` holds
exactly two inline-data parts and one text-only part, yet because the first
candidate's `finishReason` is `IMAGE_SAFETY` the normalizer saves zero
images instead of two — the safety branch runs before extraction. -/
theorem gemini_two_parts_counterexample :
    c6Parts.length = 3 ∧
    (c6Parts.filter fun p => (geminiPartData p).isSome).length = 2 ∧
    (processGeminiResponse c6Resp "req" "out" "json").images = [] := ⟨rfl, rfl, rfl⟩

/-- C6 (amended): when additionally the first candidate's finish reason is
not the safety sentinel, a `parts` list whose inline-data-bearing parts are
exactly `p1, p2` in that order saves exactly the two images
`<rid>_generated_1.<ext1>` and `<rid>_generated_2.<ext2>`, each extension
drawn from that part's own MIME-type subtype. -/
theorem gemini_two_parts :
    ∀ (fr : Option String) (rid2 odir2 jdir2 : String)
      (rest : List GCandidate) (parts : List GPart) (p1 p2 : GPart),
      fr ≠ some "IMAGE_SAFETY" →
      parts.filter (fun p => (geminiPartData p).isSome) = [p1, p2] →
      (processGeminiResponse
          { candidates := some
              ({ finishReason := fr, content := some { parts := some parts } } :: rest) }
          rid2 odir2 jdir2).success = true ∧
      (processGeminiResponse
          { candidates := some
              ({ finishReason := fr, content := some { parts := some parts } } :: rest) }
          rid2 odir2 jdir2).images
        = [pathJoin odir2 (rid2 ++ "_generated_" ++ jsNumToString 1 ++ "."
             ++ geminiExt (p1.inlineData.bind GInlineData.mimeType)),
           pathJoin odir2 (rid2 ++ "_generated_" ++ jsNumToString 2 ++ "."
             ++ geminiExt (p2.inlineData.bind GInlineData.mimeType))] := by
  intro fr rid2 odir2 jdir2 rest parts p1 p2 hfr hfil
  rw [processGeminiResponse_cons, if_neg hfr]
  refine ⟨rfl, ?_⟩
  show geminiExtract rid2 odir2 0 parts = _
  rw [geminiExtract_filter, hfil]
  rfl

def c6P1 : GPart :=
  { inlineData := some { mimeType := some "image/png", data := some "AAAA" } }

def c6P2 : GPart :=
  { inlineData := some { mimeType := some "image/jpeg", data := some "BBBB" } }

/-- Witness for the amended C6: with finish reason `STOP`, the three-part
list of `c6Parts` (png part, jpeg part, text part) saves exactly
`out/req_generated_1.png` and `out/req_generated_2.jpeg`. -/
theorem gemini_two_parts_witness :
    (some "STOP" : Option String) ≠ some "IMAGE_SAFETY" ∧
    c6Parts.filter (fun p => (geminiPartData p).isSome) = [c6P1, c6P2] ∧
    ((processGeminiResponse
        { candidates := some
            [{ finishReason := some "STOP", content := some { parts := some c6Parts } }] }
        "req" "out" "json").success = true ∧
     (processGeminiResponse
        { candidates := some
            [{ finishReason := some "STOP", content := some { parts := some c6Parts } }] }
        "req" "out" "json").images
       = [pathJoin "out" ("req" ++ "_generated_" ++ jsNumToString 1 ++ "."
            ++ geminiExt (c6P1.inlineData.bind GInlineData.mimeType)),
          pathJoin "out" ("req" ++ "_generated_" ++ jsNumToString 2 ++ "."
            ++ geminiExt (c6P2.inlineData.bind GInlineData.mimeType))]) :=
  ⟨by simp, rfl,
   gemini_two_parts (some "STOP") "req" "out" "json" [] c6Parts c6P1 c6P2 (by simp) rfl⟩

/-!
### Imagen standard-format filename indices
-/

/-- C10: for a single standard-format prediction (non-empty `images` array,
no filter reason) with at least one element carrying truthy
`bytesBase64Encoded`, the saved files are exactly the truthy elements of
`imgs.enum`: the filename suffix is the element's position in the array
(`e.1` from `enum`), not a running count of saved images, and `generated`
is the number of truthy elements — so skipped elements leave gaps in the
index sequence. -/
theorem imagen_standard_format_indices :
    ∀ (rid odir : String) (imgs : List ImagenImage),
      (imgs.enum.filter fun e => optTruthy e.2.bytesBase64Encoded) ≠ [] →
      processImagenResult (some { predictions := some [{ images := some imgs }] }) rid odir
        = { success := true, outputDir := some odir,
            images := (imgs.enum.filter fun e => optTruthy e.2.bytesBase64Encoded).map fun e =>
              pathJoin odir (rid ++ "_" ++ jsNumToString 0 ++ "_" ++ jsNumToString e.1 ++ ".png"),
            generated := some (imgs.enum.filter fun e => optTruthy e.2.bytesBase64Encoded).length,
            blockedNum := some 0 } := by
  intro rid odir imgs H
  have hlen : imgs.length > 0 := by
    cases imgs with
    | nil => exact (H rfl).elim
    | cons a l => exact Nat.succ_pos _
  have hfiles : imagenPredFiles rid odir 0 { images := some imgs }
      = (imgs.enum.filter fun e => optTruthy e.2.bytesBase64Encoded).map (fun e =>
          pathJoin odir (rid ++ "_" ++ jsNumToString 0 ++ "_" ++ jsNumToString e.1 ++ ".png")) := by
    exact if_pos hlen
  have hsp : imagenSecondPass rid odir [{ images := some imgs }]
      = imagenPredFiles rid odir 0 { images := some imgs } := by
    show imagenPredFiles rid odir 0 { images := some imgs } ++ []
        = imagenPredFiles rid odir 0 { images := some imgs }
    exact List.append_nil _
  have hns : 0 < (imagenSecondPass rid odir [{ images := some imgs }]).length := by
    rw [hsp, hfiles, List.length_map]
    exact List.length_pos.mpr H
  show (if 0 < (imagenSecondPass rid odir [{ images := some imgs }]).length then
          ({ success := true, outputDir := some odir,
             images := imagenSecondPass rid odir [{ images := some imgs }],
             generated := some (imagenSecondPass rid odir [{ images := some imgs }]).length,
             blockedNum := some 0 } : ImagenGenResult)
        else
          { success := false, error := some "没有保存任何图像",
            blockedFlag := some (decide (0 > 0)), blockedCount := some 0 })
      = { success := true, outputDir := some odir,
          images := (imgs.enum.filter fun e => optTruthy e.2.bytesBase64Encoded).map fun e =>
            pathJoin odir (rid ++ "_" ++ jsNumToString 0 ++ "_" ++ jsNumToString e.1 ++ ".png"),
          generated := some (imgs.enum.filter fun e => optTruthy e.2.bytesBase64Encoded).length,
          blockedNum := some 0 }
  rw [if_pos hns, hsp, hfiles, List.length_map]

def c10Imgs : List ImagenImage := [{}, { bytesBase64Encoded := some "AAA" }]

/-- Witness for C10: a two-element `images` array whose first element lacks
the data key saves exactly the file `req_0_1.png` — index 1, a gap at
index 0, with `generated = 1`. -/
theorem imagen_standard_format_indices_witness :
    (c10Imgs.enum.filter fun e => optTruthy e.2.bytesBase64Encoded) ≠ [] ∧
    processImagenResult (some { predictions := some [{ images := some c10Imgs }] }) "req" "out"
      = { success := true, outputDir := some "out",
          images := [pathJoin "out" "req_0_1.png"], generated := some 1,
          blockedNum := some 0 } := by
  have he : (c10Imgs.enum.filter fun e => optTruthy e.2.bytesBase64Encoded)
      = [(1, { bytesBase64Encoded := some "AAA" })] := rfl
  have h : (c10Imgs.enum.filter fun e => optTruthy e.2.bytesBase64Encoded) ≠ [] := by
    rw [he]
    exact List.cons_ne_nil _ _
  refine ⟨h, ?_⟩
  rw [imagen_standard_format_indices "req" "out" c10Imgs h]
  rfl

/-!
### RAI full-filter detection
-/

theorem processImagenResult_preds (rid odir : String) (preds : List ImagenPrediction) :
    processImagenResult (some { predictions := some preds }) rid odir
      = (if preds.length > 0 then
          match imagenFirstPass preds with
          | .error reason =>
              ({ success := false, error := some "责任人工智能过滤了内容",
                 blockedFlag := some true, raiFiltered := some true,
                 details := some reason } : ImagenGenResult)
          | .ok blockedTotal =>
              if (imagenSecondPass rid odir preds).length > 0 then
                { success := true, outputDir := some odir,
                  images := imagenSecondPass rid odir preds,
                  generated := some (imagenSecondPass rid odir preds).length,
                  blockedNum := some blockedTotal }
              else
                { success := false, error := some "没有保存任何图像",
                  blockedFlag := some (blockedTotal > 0),
                  blockedCount := some blockedTotal }
        else { success := false, error := some "No predictions found in response" }) := rfl

def c3Pred : ImagenPrediction :=
  { raiFilteredReason := some "All images were filtered out" }

/-- Counterexample to C3 as stated: the sole prediction's
`raiFilteredReason` contains the substring quoted by the claim,
"All images were filtered out", yet because the code tests for the longer
sentinel "Unable to show generated images. All images were filtered out"
the early RAI return is not taken: the result has `blocked` false,
no `raiFiltered` key, and no attached reason text (the error is the
generic no-images-saved message). -/
theorem imagen_rai_counterexample :
    jsIncludes "All images were filtered out" "All images were filtered out" = true ∧
    (processImagenResult (some { predictions := some [c3Pred] }) "req" "out").success = false ∧
    (processImagenResult (some { predictions := some [c3Pred] }) "req" "out").blockedFlag
      = some false ∧
    (processImagenResult (some { predictions := some [c3Pred] }) "req" "out").raiFiltered
      = none ∧
    (processImagenResult (some { predictions := some [c3Pred] }) "req" "out").details = none ∧
    (processImagenResult (some { predictions := some [c3Pred] }) "req" "out").error
      = some "没有保存任何图像" :=
  ⟨rfl, rfl, rfl, rfl, rfl, rfl⟩

/-- C3 (amended): when every prediction's `raiFilteredReason` is present and
contains the full sentinel "Unable to show generated images. All images were
filtered out", the result is `success:false`, `blocked:true`,
`raiFiltered:true`, zero saved images, and `details` carries the first
prediction's reason text. -/
theorem imagen_rai_all_filtered :
    ∀ (rid odir : String) (p : ImagenPrediction) (preds : List ImagenPrediction) (r : String),
      p.raiFilteredReason = some r →
      jsIncludes r raiAllSentinel = true →
      (∀ q ∈ p :: preds, ∃ s, q.raiFilteredReason = some s ∧ jsIncludes s raiAllSentinel = true) →
      processImagenResult (some { predictions := some (p :: preds) }) rid odir
        = { success := false, error := some "责任人工智能过滤了内容",
            blockedFlag := some true, raiFiltered := some true, details := some r } := by
  intro rid odir p preds r hr hinc _
  have hrne : r ≠ "" := by
    intro h0
    subst h0
    exact absurd hinc (by decide)
  have htr : optTruthy p.raiFilteredReason = true := by
    rw [hr]
    show (!r.isEmpty) = true
    rw [string_isEmpty_false hrne]
    rfl
  have hfp : imagenFirstPass (p :: preds) = .error r := by
    unfold imagenFirstPass
    rw [if_pos htr, hr]
    simp only [Option.getD_some]
    rw [if_pos hinc]
  rw [processImagenResult_preds, if_pos (show (p :: preds).length > 0 from Nat.succ_pos _), hfp]

def c3wPred : ImagenPrediction := { raiFilteredReason := some raiAllSentinel }

set_option maxRecDepth 8000 in
/-- Witness for the amended C3: a single prediction whose reason is the full
sentinel itself is detected and reported with the reason attached. -/
theorem imagen_rai_all_filtered_witness :
    c3wPred.raiFilteredReason = some raiAllSentinel ∧
    jsIncludes raiAllSentinel raiAllSentinel = true ∧
    (∀ q ∈ [c3wPred], ∃ s, q.raiFilteredReason = some s ∧ jsIncludes s raiAllSentinel = true) ∧
    processImagenResult (some { predictions := some [c3wPred] }) "req" "out"
      = { success := false, error := some "责任人工智能过滤了内容",
          blockedFlag := some true, raiFiltered := some true,
          details := some raiAllSentinel } := by
  have hinc : jsIncludes raiAllSentinel raiAllSentinel = true := by decide
  have hall : ∀ q ∈ [c3wPred], ∃ s, q.raiFilteredReason = some s
      ∧ jsIncludes s raiAllSentinel = true := by
    intro q hq
    rw [List.mem_singleton] at hq
    subst hq
    exact ⟨raiAllSentinel, rfl, hinc⟩
  exact ⟨rfl, hinc, hall,
    imagen_rai_all_filtered "req" "out" c3wPred [] raiAllSentinel rfl hinc hall⟩

def c4Err : NetErr := { message := "socket hang up", code := some "ECONNRESET" }

def c4RetryErr : NetErr := { message := "proxy retry refused" }

/-- Counterexample to C4 as stated: the primary attempt throws and the
proxy-reconfigured retry also fails, yet nothing propagates to the caller:
`fetchWithProxy` rethrows the original error (the retry failure's throw at
auth.js line 324 is swallowed by the diagnostic `catch`), and both
top-level generate functions convert it into a structured
`success:false` result carrying the original message. -/
theorem transport_error_counterexample :
    @fetchWithProxy ImagenHttpResponse (.error c4Err) (some "http://proxy:8080") none
        (.error c4RetryErr)
      = .error c4Err ∧
    generateImagesWithImagen (.error c4Err) "req" "out"
      = { success := false, error := some "socket hang up" } ∧
    generateImagesWithGemini (.error c4Err) "req" "out" "json"
      = { success := false, error := some "socket hang up" } := ⟨rfl, rfl, rfl⟩

/-- C4 (amended): whenever the primary attempt throws and the retry (if the
retry condition even holds) also fails, `fetchWithProxy` resolves to the
*original* error, and each top-level generate entry point catches it and
returns `{success:false, error:<original message>}` rather than letting it
propagate. -/
theorem transport_error_structured :
    ∀ (α : Type) (e eR : NetErr) (sp agent : Option String) (rid odir jdir : String),
      @fetchWithProxy α (.error e) sp agent (.error eR) = .error e ∧
      generateImagesWithImagen (.error e) rid odir
        = { success := false, error := some e.message } ∧
      generateImagesWithGemini (.error e) rid odir jdir
        = { success := false, error := some e.message } := by
  intro α e eR sp agent rid odir jdir
  refine ⟨?_, rfl, rfl⟩
  unfold fetchWithProxy
  cases sp with
  | none => rfl
  | some s =>
      show (if (agent.isNone || decide (e.code = some "ETIMEDOUT")) = true then
              (Except.error e : Except NetErr α)
            else Except.error e)
          = Except.error e
      exact ite_self _

/-!
### saveFile base64 round-trip
-/

theorem b64_roundtrip_char :
    ∀ v : Nat, v < 64 → isB64Char (b64Char v) = true ∧ b64Val (b64Char v) = v := by
  decide

theorem b64_decode_encodeBytes : ∀ bytes : List Nat, (∀ b ∈ bytes, b < 256) →
    b64PackVals (((b64EncodeBytes bytes).filter isB64Char).map b64Val) = bytes := by
  intro bytes
  induction bytes using b64EncodeBytes.induct with
  | case1 =>
    intro hb
    rfl
  | case2 b1 =>
    intro hb
    have hb1 : b1 < 256 := hb b1 (by simp)
    have h1 := b64_roundtrip_char (b1 / 4) (by omega)
    have h2 := b64_roundtrip_char (b1 % 4 * 16) (by omega)
    simp only [b64EncodeBytes]
    rw [List.filter_cons_of_pos h1.1, List.filter_cons_of_pos h2.1,
        List.filter_cons_of_neg (by decide), List.filter_cons_of_neg (by decide)]
    simp only [List.filter_nil, List.map_cons, List.map_nil, h1.2, h2.2, b64PackVals]
    simp only [List.cons.injEq, and_true]
    omega
  | case3 b1 b2 =>
    intro hb
    have hb1 : b1 < 256 := hb b1 (by simp)
    have hb2 : b2 < 256 := hb b2 (by simp)
    have h1 := b64_roundtrip_char (b1 / 4) (by omega)
    have h2 := b64_roundtrip_char (b1 % 4 * 16 + b2 / 16) (by omega)
    have h3 := b64_roundtrip_char (b2 % 16 * 4) (by omega)
    simp only [b64EncodeBytes]
    rw [List.filter_cons_of_pos h1.1, List.filter_cons_of_pos h2.1,
        List.filter_cons_of_pos h3.1, List.filter_cons_of_neg (by decide)]
    simp only [List.filter_nil, List.map_cons, List.map_nil, h1.2, h2.2, h3.2, b64PackVals]
    simp only [List.cons.injEq, and_true]
    constructor
    · omega
    · omega
  | case4 b1 b2 b3 rest ih =>
    intro hb
    have hb1 : b1 < 256 := hb b1 (by simp)
    have hb2 : b2 < 256 := hb b2 (by simp)
    have hb3 : b3 < 256 := hb b3 (by simp)
    have hbr : ∀ b ∈ rest, b < 256 := fun b hbm => hb b (by simp [hbm])
    have h1 := b64_roundtrip_char (b1 / 4) (by omega)
    have h2 := b64_roundtrip_char (b1 % 4 * 16 + b2 / 16) (by omega)
    have h3 := b64_roundtrip_char (b2 % 16 * 4 + b3 / 64) (by omega)
    have h4 := b64_roundtrip_char (b3 % 64) (by omega)
    simp only [b64EncodeBytes]
    rw [List.filter_cons_of_pos h1.1, List.filter_cons_of_pos h2.1,
        List.filter_cons_of_pos h3.1, List.filter_cons_of_pos h4.1]
    simp only [List.map_cons, h1.2, h2.2, h3.2, h4.2, b64PackVals]
    rw [ih hbr]
    simp only [List.cons.injEq, and_true]
    refine ⟨by omega, by omega, by omega⟩

def c9Input : String := "QQ"

/-- Counterexample to C9 as stated: writing the two-character base64 input
"QQ" with `isBase64:true` stores the single byte 0x41; reading it back and
re-encoding yields the canonical padded form "QQ==", which differs from the
original input — the round-trip is not the identity on all strings. -/
theorem saveFile_base64_counterexample :
    b64Encode (saveFileBytes c9Input true) = "QQ==" ∧ ("QQ==" : String) ≠ c9Input :=
  ⟨rfl, by decide⟩

/-- C9 (amended): the round-trip holds exactly for canonical padded
encodings: for every byte sequence (each byte below 256), saving its
canonical base64 encoding with `isBase64:true`, reading the file back and
re-encoding reproduces that encoding bit-for-bit. -/
theorem saveFile_base64_roundtrip :
    ∀ (bytes : List Nat), (∀ b ∈ bytes, b < 256) →
      b64Encode (saveFileBytes (b64Encode bytes) true) = b64Encode bytes := by
  intro bytes hb
  have hd : b64Decode (b64Encode bytes) = bytes := by
    show b64PackVals (((String.mk (b64EncodeBytes bytes)).data.filter isB64Char).map b64Val)
        = bytes
    exact b64_decode_encodeBytes bytes hb
  show b64Encode (b64Decode (b64Encode bytes)) = b64Encode bytes
  rw [hd]

/-- Witness for the amended C9: the bytes of "Man" encode to "TWFu" and the
round-trip reproduces "TWFu". -/
theorem saveFile_base64_roundtrip_witness :
    (∀ b ∈ ([77, 97, 110] : List Nat), b < 256) ∧
    b64Encode (saveFileBytes (b64Encode [77, 97, 110]) true) = b64Encode [77, 97, 110] :=
  ⟨by decide, saveFile_base64_roundtrip [77, 97, 110] (by decide)⟩
